import Mathlib

set_option autoImplicit false
set_option maxRecDepth 4000

/-!
Verification model of the mf-shared global store
(`src/store/GlobalStore.ts`, `src/utils/encryption.ts`).

The store holds a JSON-like tree addressed by dot-delimited paths.  The
value domain is modelled by `JValue`: null, booleans, integer numbers,
strings and string-keyed objects (JSON arrays and fractional numbers are
outside the modelled domain; no operation of the store treats them
specially other than as opaque leaves).  The JavaScript notion of an
absent value (`undefined`) is modelled by `Option JValue` with `none`
standing for `undefined`.
-/

mutual

inductive JValue : Type where
  | null : JValue
  | bool : Bool → JValue
  | num : Int → JValue
  | str : String → JValue
  | obj : JFields → JValue

/-- Fields of a JavaScript object, in property insertion order. -/
inductive JFields : Type where
  | nil : JFields
  | cons : String → JValue → JFields → JFields

end

/-- Property lookup in an object's field list (JS `o[k]`, `undefined` ↦ `none`). -/
def lookupF : JFields → String → Option JValue
  | .nil, _ => none
  | .cons k v rest, key => if k = key then some v else lookupF rest key

/-- Property assignment `o[k] = v`: updates in place, appends a new property at the end. -/
def setF : JFields → String → JValue → JFields
  | .nil, key, v => .cons key v .nil
  | .cons k w rest, key, v =>
    if k = key then .cons k v rest else .cons k w (setF rest key v)

/-- Property deletion `delete o[k]`. -/
def deleteF : JFields → String → JFields
  | .nil, _ => .nil
  | .cons k w rest, key =>
    if k = key then deleteF rest key else .cons k w (deleteF rest key)

/-- JavaScript truthiness of a present value. -/
def JValue.truthy : JValue → Bool
  | .null => false
  | .bool b => b
  | .num n => !(n == 0)
  | .str s => !(s == "")
  | .obj _ => true

/-- Splitting a character list at `'.'`, exactly as JS `s.split('.')`:
the result is always non-empty, and empty input yields `[[]]`. -/
def splitCh : List Char → List (List Char)
  | [] => [[]]
  | c :: rest =>
    if c = '.' then [] :: splitCh rest
    else
      match splitCh rest with
      | [] => [[c]]
      | s :: ss => (c :: s) :: ss

/-- Joining character lists with `'.'` (JS `parts.join('.')`). -/
def joinCh : List (List Char) → List Char
  | [] => []
  | [s] => s
  | s :: rest => s ++ '.' :: joinCh (rest)

/-- JS `path.split('.')`. -/
def splitOnDot (s : String) : List String :=
  (splitCh s.data).map String.mk

/-- JS `segs.join('.')`. -/
def joinDots (l : List String) : String :=
  String.mk (joinCh (l.map String.data))

/-- One step of `StorageCore.getNestedValue`'s reduce:
`current && current[key] !== undefined ? current[key] : undefined`.
Property access on a primitive yields `undefined` in the modelled
domain (string/array index properties are outside the model). -/
def getStep (current : Option JValue) (key : String) : Option JValue :=
  match current with
  | none => none
  | some c =>
    if c.truthy then
      match c with
      | .obj fields => lookupF fields key
      | _ => none
    else none

/-- Traversal of a segment list starting from an object's fields. -/
def getSegs (fields : JFields) (segs : List String) : Option JValue :=
  segs.foldl getStep (some (.obj fields))

/-- `StorageCore.getNestedValue(obj, path)`. -/
def getNestedValue (fields : JFields) (path : String) : Option JValue :=
  getSegs fields (splitOnDot path)

/-- The object the `setNestedValue` reduce descends into at key `k`:
kept when it is a (truthy) object, otherwise replaced by a fresh `{}`
(`!current[key] || typeof current[key] !== 'object'`; note `null` is
falsy and hence also replaced). -/
def childOf (fields : JFields) (k : String) : JFields :=
  match lookupF fields k with
  | some (.obj gs) => gs
  | _ => .nil

/-- The descending reduce of `StorageCore.setNestedValue` after the final
segment `lastKey` has been popped; `value = none` models writing
`undefined`, which deletes the entry instead of storing it. -/
def setInObj (fields : JFields) (keys : List String) (lastKey : String)
    (value : Option JValue) : JFields :=
  match keys with
  | [] =>
    match value with
    | none => deleteF fields lastKey
    | some v => setF fields lastKey v
  | k :: rest =>
    setF fields k (.obj (setInObj (childOf fields k) rest lastKey value))

/-- `StorageCore.setNestedValue(obj, path, value)`: splits the path, pops
the last segment, returns unchanged when the popped segment is falsy
(`if (!lastKey) return`), otherwise descends creating intermediate
objects and assigns or deletes at the leaf. -/
def setNestedValue (fields : JFields) (path : String) (value : Option JValue) :
    JFields :=
  let keys := splitOnDot path
  match keys.getLast? with
  | none => fields
  | some lastKey =>
    if lastKey = "" then fields
    else setInObj fields (keys.dropLast) lastKey value

mutual

/-- Decidable structural (deep) equality on values. -/
def JValue.decEq : (a b : JValue) → Decidable (a = b)
  | .null, .null => isTrue rfl
  | .bool a, .bool b =>
    if h : a = b then isTrue (by rw [h]) else
      isFalse (fun hh => h (by injection hh))
  | .num a, .num b =>
    if h : a = b then isTrue (by rw [h]) else
      isFalse (fun hh => h (by injection hh))
  | .str a, .str b =>
    if h : a = b then isTrue (by rw [h]) else
      isFalse (fun hh => h (by injection hh))
  | .obj a, .obj b =>
    match JFields.decEq a b with
    | isTrue h => isTrue (by rw [h])
    | isFalse h => isFalse (fun hh => h (by injection hh))
  | .null, .bool _ | .null, .num _ | .null, .str _ | .null, .obj _
  | .bool _, .null | .bool _, .num _ | .bool _, .str _ | .bool _, .obj _
  | .num _, .null | .num _, .bool _ | .num _, .str _ | .num _, .obj _
  | .str _, .null | .str _, .bool _ | .str _, .num _ | .str _, .obj _
  | .obj _, .null | .obj _, .bool _ | .obj _, .num _ | .obj _, .str _ =>
    isFalse (fun hh => JValue.noConfusion hh)

/-- Decidable structural equality on field lists. -/
def JFields.decEq : (a b : JFields) → Decidable (a = b)
  | .nil, .nil => isTrue rfl
  | .cons k v r, .cons k2 v2 r2 =>
    if hk : k = k2 then
      match JValue.decEq v v2 with
      | isTrue hv =>
        match JFields.decEq r r2 with
        | isTrue hr => isTrue (by rw [hk, hv, hr])
        | isFalse hr => isFalse (fun hh => hr (by injection hh))
      | isFalse hv => isFalse (fun hh => hv (by injection hh))
    else isFalse (fun hh => hk (by injection hh))
  | .nil, .cons _ _ _ | .cons _ _ _, .nil =>
    isFalse (fun hh => JFields.noConfusion hh)

end

instance : DecidableEq JValue := JValue.decEq

instance : DecidableEq JFields := JFields.decEq

example : getNestedValue .nil "a" = none := by decide
example : getNestedValue (setNestedValue .nil "a.b" (some (.num 3))) "a.b" = some (.num 3) := by decide
example : setNestedValue .nil "" (some (.num 1)) = .nil := by decide
example : getNestedValue (setNestedValue .nil ".x" (some (.num 1))) "" =
    some (.obj (.cons "x" (.num 1) .nil)) := by decide

/-! ### Association lists

`localStorage`/`sessionStorage` contents, the strategy registry (a JS
`Map` in insertion order) and the subscriber registry are modelled as
association lists in insertion order. -/

/-- First-match lookup in an association list (JS `Map.get` / `storage.getItem`). -/
def lookupA {β : Type} : List (String × β) → String → Option β
  | [], _ => none
  | (k, v) :: rest, key => if k = key then some v else lookupA rest key

/-- Update-or-append (JS `Map.set` / `storage.setItem`): an existing key keeps
its position, a new key is appended. -/
def setA {β : Type} : List (String × β) → String → β → List (String × β)
  | [], key, v => [(key, v)]
  | (k, w) :: rest, key, v =>
    if k = key then (k, v) :: rest else (k, w) :: setA rest key v

/-- Removal (JS `Map.delete` / `storage.removeItem`). -/
def deleteA {β : Type} : List (String × β) → String → List (String × β)
  | [], _ => []
  | (k, w) :: rest, key =>
    if k = key then deleteA rest key else (k, w) :: deleteA rest key

/-! ### Persistence strategies -/

/-- `StorageStrategy.medium`. -/
inductive Medium : Type where
  | memory : Medium
  | local : Medium
  | session : Medium
  deriving DecidableEq, Repr

/-- `StorageStrategy` (the optional `encrypted` flag defaults to `false`,
matching its use only under JS truthiness tests). -/
structure StorageStrategy : Type where
  medium : Medium
  encrypted : Bool
  deriving DecidableEq, Repr

/-- JS `key.startsWith(pre)`. -/
def jsStartsWith (key pre : String) : Bool :=
  List.isPrefixOf pre.data key.data

/-- `PersistenceManager.findStrategyFor`: a fold over the strategy `Map` in
insertion order keeping the entry whose prefix matches the key and is
strictly longer than the best prefix so far (which starts as `''`). -/
def findStrategyFor (strategies : List (String × StorageStrategy)) (key : String) :
    Option StorageStrategy :=
  (strategies.foldl
    (fun best entry =>
      if jsStartsWith key entry.1 && decide (best.1.length < entry.1.length) then
        (entry.1, some entry.2)
      else best)
    ("", (none : Option StorageStrategy))).2

/-! ### Subscriptions and notification -/

/-- Subscriber callbacks are opaque; reference identity is modelled by a
numeric handle. -/
abbrev Subscribers := List (String × List Nat)

/-- One observed callback invocation `callback(key, newValue, oldValue)`. -/
structure Invoc : Type where
  cb : Nat
  key : String
  newValue : Option JValue
  oldValue : Option JValue
  deriving DecidableEq

/-- The ancestor loop of `SubscriptionManager.notify`:
`for (let i = keyParts.length - 1; i > 0; i--)`, notifying the
subscribers of each parent key with the parent's current value read from
the storage core and the leaf's old value. -/
def notifyParents (subs : Subscribers) (keyParts : List String)
    (oldValue : Option JValue) (core : JFields) : List Invoc :=
  ((List.range' 1 (keyParts.length - 1)).reverse.map (fun i =>
    let parentKey := joinDots (keyParts.take i)
    match lookupA subs parentKey with
    | some cbs => cbs.map (fun c => Invoc.mk c parentKey (getNestedValue core parentKey) oldValue)
    | none => [])).flatten

/-- `SubscriptionManager.notify(key, newValue, oldValue, storageCore,
immediateCallback?)`: the immediate callback first, then the exact-path
subscribers skipping one reference-equal to the immediate callback, then
the ancestor paths.  The result is the invocation sequence. -/
def notify (subs : Subscribers) (key : String) (newValue oldValue : Option JValue)
    (core : JFields) (immediateCallback : Option Nat) : List Invoc :=
  (match immediateCallback with
   | some cb => [Invoc.mk cb key newValue oldValue]
   | none => []) ++
  (match lookupA subs key with
   | some cbs =>
     (cbs.filter (fun c => !(some c == immediateCallback))).map
       (fun c => Invoc.mk c key newValue oldValue)
   | none => []) ++
  notifyParents subs (splitOnDot key) oldValue core

/-! ### The store coordinator -/

/-- `StoreOptions` (defaults: persistence and encryption on, storage key
`"mf-shell-store"`); a missing `storageKey` is modelled by `""`, the only
falsy string. -/
structure StoreOptions : Type where
  enablePersistence : Bool
  enableEncryption : Bool
  storageKey : String
  deriving DecidableEq, Repr

/-- The external serialization collaborators (`JSON.stringify`/`JSON.parse`
composed with `encryptObject`/`decryptObject` depending on the boolean
flag).  `decodeValue` returns `none` where the original throws.  They are
opaque to the store coordinator, so the coordinator model is parametric
over them. -/
structure Codec : Type where
  encodeTree : Bool → JFields → String
  encodeValue : Bool → JValue → String
  decodeValue : Bool → String → Option JValue

/-- The mutable state owned by one `GlobalStore` instance together with the
browsing context's two storage media. -/
structure GlobalStoreState : Type where
  data : JFields
  isInitialized : Bool
  options : StoreOptions
  strategies : List (String × StorageStrategy)
  subscribers : Subscribers
  localStore : List (String × String)
  sessionStore : List (String × String)

/-- A message posted on the BroadcastChannel. -/
inductive SyncMsg : Type where
  | set : String → Option JValue → SyncMsg
  | clearAppData : String → SyncMsg
  deriving DecidableEq

/-- `PersistenceManager.makeItemKey`: `` `${storageKey || 'mf-shell-store'}:${key}` ``. -/
def makeItemKey (opts : StoreOptions) (key : String) : String :=
  (if opts.storageKey = "" then "mf-shell-store" else opts.storageKey) ++ ":" ++ key

/-- `PersistenceManager.persistKey`: no-op without a strategy or for the
`memory` medium; removes the namespaced item when the value is absent,
otherwise writes the serialized value to the strategy's medium. -/
def persistKey (codec : Codec) (st : GlobalStoreState) (key : String)
    (value : Option JValue) : GlobalStoreState :=
  match findStrategyFor st.strategies key with
  | none => st
  | some strat =>
    if strat.medium = Medium.memory then st
    else
      let itemKey := makeItemKey st.options key
      match value with
      | none =>
        if strat.medium = Medium.local then
          { st with localStore := deleteA st.localStore itemKey }
        else
          { st with sessionStore := deleteA st.sessionStore itemKey }
      | some v =>
        let serialized := codec.encodeValue strat.encrypted v
        if strat.medium = Medium.local then
          { st with localStore := setA st.localStore itemKey serialized }
        else
          { st with sessionStore := setA st.sessionStore itemKey serialized }

/-- `PersistenceManager.saveToStorage`: aggregate save of the whole tree
under `storageKey` in localStorage, gated on `enablePersistence` and a
truthy `storageKey`. -/
def saveToStorage (codec : Codec) (st : GlobalStoreState) : GlobalStoreState :=
  if !st.options.enablePersistence || st.options.storageKey = "" then st
  else
    { st with localStore := (setA st.localStore st.options.storageKey
        (codec.encodeTree st.options.enableEncryption st.data)) }

/-- `PersistenceManager.loadKey`: resolves the strategy (none or `memory`
gives `undefined`), reads the namespaced item from the medium (`if (!raw)`
also rejects the empty string), then deserializes; a deserialization
throw is caught and yields `undefined`. -/
def loadKey (codec : Codec) (st : GlobalStoreState) (key : String) : Option JValue :=
  match findStrategyFor st.strategies key with
  | none => none
  | some strat =>
    if strat.medium = Medium.memory then none
    else
      let itemKey := makeItemKey st.options key
      let raw :=
        if strat.medium = Medium.local then lookupA st.localStore itemKey
        else lookupA st.sessionStore itemKey
      match raw with
      | none => none
      | some r => if r = "" then none else codec.decodeValue strat.encrypted r

/-- `GlobalStore.get`: warns and returns `undefined` before `init`;
otherwise reads the in-memory tree, falling back to the per-key
persistence load with lazy hydration of the tree and an aggregate save
when persistence is enabled. -/
def GlobalStore.get (codec : Codec) (st : GlobalStoreState) (key : String) :
    Option JValue × GlobalStoreState :=
  if !st.isInitialized then (none, st)
  else
    match getNestedValue st.data key with
    | some v => (some v, st)
    | none =>
      match loadKey codec st key with
      | some loaded =>
        let st1 := { st with data := setNestedValue st.data key (some loaded) }
        let st2 := if st.options.enablePersistence then saveToStorage codec st1 else st1
        (some loaded, st2)
      | none => (none, st)

/-- `GlobalStore.set`: warns and does nothing before `init`; otherwise
captures the old value, writes the tree, persists per key, persists the
aggregate when enabled, broadcasts, and notifies subscribers.  The result
carries the new state, the broadcast messages and the local callback
invocations. -/
def GlobalStore.set (codec : Codec) (st : GlobalStoreState) (key : String)
    (value : Option JValue) (callback : Option Nat) :
    GlobalStoreState × List SyncMsg × List Invoc :=
  if !st.isInitialized then (st, [], [])
  else
    let oldValue := getNestedValue st.data key
    let st1 := { st with data := setNestedValue st.data key value }
    let st2 := persistKey codec st1 key value
    let st3 := if st.options.enablePersistence then saveToStorage codec st2 else st2
    (st3, [SyncMsg.set key value],
     notify st.subscribers key value oldValue st1.data callback)

/-- `PersistenceManager.clearAppData`: removes the aggregate localStorage
item named `appStorageKey`, then every item in both media whose key
starts with `` `${appStorageKey}:` ``. -/
def clearStorages (ls ss : List (String × String)) (appKey : String) :
    List (String × String) × List (String × String) :=
  let storagePre := appKey ++ ":"
  ((deleteA ls appKey).filter (fun e => !(jsStartsWith e.1 storagePre)),
   ss.filter (fun e => !(jsStartsWith e.1 storagePre)))

/-- `GlobalStore.clearAppData`: clears the in-memory tree when the argument
names this instance's own storage key, then unconditionally delegates the
storage scan-and-remove and broadcasts the clear.  No subscriber is
notified. -/
def GlobalStore.clearAppData (st : GlobalStoreState) (appKey : String) :
    GlobalStoreState × List SyncMsg × List Invoc :=
  let st1 := if appKey = st.options.storageKey then { st with data := JFields.nil } else st
  let cleared := clearStorages st1.localStore st1.sessionStore appKey
  ({ st1 with localStore := cleared.1, sessionStore := cleared.2 },
   [SyncMsg.clearAppData appKey], [])

/-! ### The at-rest encoding (`src/utils/encryption.ts`)

`encrypt` is `btoa(unescape(encodeURIComponent(data)))` XOR-mixed with a
fixed key and base64-encoded again; `decrypt` is the inverse with every
host throw caught.  The host primitives `btoa`/`atob` (base64),
`unescape(encodeURIComponent(s))` (UTF-8 encoding) and
`decodeURIComponent(escape(s))` (UTF-8 decoding) are modelled per their
standard semantics; a throw is an explicit `none`. -/

/-- The fixed obfuscation key of `src/utils/encryption.ts`. -/
def ENCRYPTION_KEY : String := "mf-store-key-2025"

/-- The standard base64 digit alphabet. -/
def b64Alphabet : List Char :=
  "ABCDEFGHIJKLMNOPQRSTUVWXYZabcdefghijklmnopqrstuvwxyz0123456789+/".data

/-- Index of a character in a list, if present. -/
def indexOfChar : List Char → Char → Option Nat
  | [], _ => none
  | c :: rest, d => if c = d then some 0 else (indexOfChar rest d).map (· + 1)

/-- The base64 digit for a 6-bit value. -/
def b64Char (n : Nat) : Char := b64Alphabet.getD n 'A'

/-- Base64 encoding of a byte list, three bytes to four digits with
`'='` padding. -/
def btoaGroups : List Nat → List Char
  | [] => []
  | [b0] => [b64Char (b0 / 4), b64Char (b0 % 4 * 16), '=', '=']
  | [b0, b1] => [b64Char (b0 / 4), b64Char (b0 % 4 * 16 + b1 / 16), b64Char (b1 % 16 * 4), '=']
  | b0 :: b1 :: b2 :: rest =>
    b64Char (b0 / 4) :: b64Char (b0 % 4 * 16 + b1 / 16) ::
      b64Char (b1 % 16 * 4 + b2 / 64) :: b64Char (b2 % 64) :: btoaGroups rest

/-- JS `btoa`: throws (`none`) when some character is above `U+00FF`. -/
def btoa (s : String) : Option String :=
  if s.data.all (fun c => decide (c.toNat ≤ 255)) then
    some (String.mk (btoaGroups (s.data.map Char.toNat)))
  else none

/-- ASCII whitespace stripped by forgiving base64 decoding. -/
def isB64Space (c : Char) : Bool :=
  c = ' ' || c = '\t' || c = '\n' || c.toNat = 13 || c.toNat = 12

/-- Drops up to two `'='` from the front (used on the reversed digit list). -/
def dropPadding : List Char → List Char
  | '=' :: '=' :: rest => rest
  | '=' :: rest => rest
  | l => l

/-- Alphabet indices of the base64 digits, or `none` on a foreign character. -/
def b64Indices : List Char → Option (List Nat)
  | [] => some []
  | c :: rest =>
    match indexOfChar b64Alphabet c with
    | none => none
    | some i => (b64Indices rest).map (fun tl => i :: tl)

/-- Bytes from 6-bit groups; a lone trailing group is an error, trailing
2- and 3-digit groups contribute one and two bytes (extra bits dropped,
as in forgiving base64). -/
def atobDecode : List Nat → Option (List Nat)
  | [] => some []
  | [_] => none
  | [a, b] => some [a * 4 + b / 16]
  | [a, b, c] => some [a * 4 + b / 16, b % 16 * 16 + c / 4]
  | a :: b :: c :: d :: rest =>
    (atobDecode rest).map
      (fun tl => (a * 4 + b / 16) :: (b % 16 * 16 + c / 4) :: (c % 4 * 64 + d) :: tl)

/-- JS `atob` (forgiving base64): strip whitespace, strip padding when the
length is a multiple of four, reject foreign characters and a remainder
of one, decode the rest. -/
def atob (s : String) : Option String :=
  let cs0 := s.data.filter (fun c => !isB64Space c)
  let cs := if cs0.length % 4 = 0 then (dropPadding cs0.reverse).reverse else cs0
  if cs.length % 4 = 1 then none
  else
    match b64Indices cs with
    | none => none
    | some idxs =>
      match atobDecode idxs with
      | none => none
      | some bytes => some (String.mk (bytes.map Char.ofNat))

/-- The per-character XOR loop shared by `encrypt` and `decrypt`, cycling
through `ENCRYPTION_KEY`. -/
def xorKeyAux (key : List Char) : Nat → List Char → List Char
  | _, [] => []
  | i, c :: rest =>
    Char.ofNat (Nat.xor c.toNat (key.getD (i % key.length) 'A').toNat) ::
      xorKeyAux key (i + 1) rest

/-- XOR-mixing a character list with the fixed key. -/
def xorWithKey (s : List Char) : List Char := xorKeyAux ENCRYPTION_KEY.data 0 s

/-- UTF-8 bytes of one code point. -/
def utf8EncodeChar (n : Nat) : List Nat :=
  if n < 128 then [n]
  else if n < 2048 then [192 + n / 64, 128 + n % 64]
  else if n < 65536 then [224 + n / 4096, 128 + n / 64 % 64, 128 + n % 64]
  else [240 + n / 262144, 128 + n / 4096 % 64, 128 + n / 64 % 64, 128 + n % 64]

/-- JS `unescape(encodeURIComponent(s))`: the UTF-8 byte sequence of `s`. -/
def utf8Bytes (s : String) : List Nat :=
  (s.data.map (fun c => utf8EncodeChar c.toNat)).flatten

/-- A UTF-8 continuation byte. -/
def contB (b : Nat) : Bool := decide (128 ≤ b) && decide (b ≤ 191)

/-- JS `decodeURIComponent(escape(s))` on a byte string: strict UTF-8
decoding, `none` where the original throws `URIError`. -/
def utf8Decode : List Nat → Option (List Char)
  | [] => some []
  | b :: rest =>
    if b < 128 then (utf8Decode rest).map (fun tl => Char.ofNat b :: tl)
    else if b < 194 then none
    else if b ≤ 223 then
      match rest with
      | b1 :: rest2 =>
        if contB b1 then
          (utf8Decode rest2).map (fun tl => Char.ofNat ((b - 192) * 64 + (b1 - 128)) :: tl)
        else none
      | [] => none
    else if b ≤ 239 then
      match rest with
      | b1 :: b2 :: rest3 =>
        let lo1 := if b = 224 then 160 else 128
        let hi1 := if b = 237 then 159 else 191
        if decide (lo1 ≤ b1) && decide (b1 ≤ hi1) && contB b2 then
          (utf8Decode rest3).map
            (fun tl => Char.ofNat ((b - 224) * 4096 + (b1 - 128) * 64 + (b2 - 128)) :: tl)
        else none
      | _ => none
    else if b ≤ 244 then
      match rest with
      | b1 :: b2 :: b3 :: rest4 =>
        let lo1 := if b = 240 then 144 else 128
        let hi1 := if b = 244 then 143 else 191
        if decide (lo1 ≤ b1) && decide (b1 ≤ hi1) && contB b2 && contB b3 then
          (utf8Decode rest4).map
            (fun tl =>
              Char.ofNat ((b - 240) * 262144 + (b1 - 128) * 4096 + (b2 - 128) * 64 + (b3 - 128)) :: tl)
        else none
      | _ => none
    else none

/-- `encrypt(data)` from `src/utils/encryption.ts`:
`btoa(xor(btoa(utf8(data)), key))`, returning the input on a throw. -/
def encrypt (data : String) : String :=
  match btoa (String.mk ((utf8Bytes data).map Char.ofNat)) with
  | none => data
  | some base64 =>
    match btoa (String.mk (xorWithKey base64.data)) with
    | none => data
    | some out => out

/-- `decrypt(encryptedData)` from `src/utils/encryption.ts`: the inverse
chain, with any host throw caught and the input returned unchanged. -/
def decrypt (encryptedData : String) : String :=
  match atob encryptedData with
  | none => encryptedData
  | some encrypted =>
    match atob (String.mk (xorWithKey encrypted.data)) with
    | none => encryptedData
    | some inner =>
      match utf8Decode (inner.data.map Char.toNat) with
      | none => encryptedData
      | some cs => String.mk cs

/-! ### `JSON.stringify` / `JSON.parse` on the modelled value domain -/

/-- Lower-case hexadecimal digit. -/
def hexDigit (n : Nat) : Char := "0123456789abcdef".data.getD n '0'

/-- `JSON.stringify` string-content escaping. -/
def jsonEscape : List Char → List Char
  | [] => []
  | c :: rest =>
    if c = '"' then '\\' :: '"' :: jsonEscape rest
    else if c = '\\' then '\\' :: '\\' :: jsonEscape rest
    else if c.toNat < 32 then
      if c = '\n' then '\\' :: 'n' :: jsonEscape rest
      else if c = '\t' then '\\' :: 't' :: jsonEscape rest
      else if c.toNat = 13 then '\\' :: 'r' :: jsonEscape rest
      else if c.toNat = 8 then '\\' :: 'b' :: jsonEscape rest
      else if c.toNat = 12 then '\\' :: 'f' :: jsonEscape rest
      else '\\' :: 'u' :: '0' :: '0' :: hexDigit (c.toNat / 16) :: hexDigit (c.toNat % 16) :: jsonEscape rest
    else c :: jsonEscape rest

mutual

/-- `JSON.stringify` of a value in the modelled domain. -/
def jsonStringify : JValue → List Char
  | .null => "null".data
  | .bool true => "true".data
  | .bool false => "false".data
  | .num n => (toString n).data
  | .str s => '"' :: (jsonEscape s.data ++ ['"'])
  | .obj fields => '{' :: (jsonStringifyFields fields ++ ['}'])

/-- `JSON.stringify` of an object body, comma-separated in field order. -/
def jsonStringifyFields : JFields → List Char
  | .nil => []
  | .cons k v .nil => '"' :: (jsonEscape k.data ++ '"' :: ':' :: jsonStringify v)
  | .cons k v rest =>
    '"' :: (jsonEscape k.data ++ '"' :: ':' :: jsonStringify v ++ ',' :: jsonStringifyFields rest)

end

/-- `encryptObject(obj)`: `encrypt(JSON.stringify(obj))`. -/
def encryptObject (v : JValue) : String :=
  encrypt (String.mk (jsonStringify v))

/-- JSON insignificant whitespace. -/
def skipWs : List Char → List Char
  | c :: rest =>
    if c = ' ' || c = '\t' || c = '\n' || c.toNat = 13 then skipWs rest else c :: rest
  | [] => []

/-- ASCII decimal digit test. -/
def isDigitCh (c : Char) : Bool := decide (48 ≤ c.toNat) && decide (c.toNat ≤ 57)

/-- Longest digit run at the front. -/
def takeDigits : List Char → List Char × List Char
  | [] => ([], [])
  | c :: rest =>
    if isDigitCh c then
      match takeDigits rest with
      | (ds, tl) => (c :: ds, tl)
    else ([], c :: rest)

/-- Numeric value of a digit run. -/
def natOfDigits : List Char → Nat → Nat
  | [], acc => acc
  | c :: rest, acc => natOfDigits rest (acc * 10 + (c.toNat - 48))

/-- JSON number at the front of the input, restricted to the modelled
integer domain: an optional minus sign and a digit run without a
redundant leading zero; a following `'.'`, `'e'` or `'E'` (a fractional
or scaled number, outside the modelled domain) is a parse failure. -/
def parseNumber (cs : List Char) : Option (Int × List Char) :=
  let signed := match cs with
    | '-' :: rest => (true, rest)
    | _ => (false, cs)
  match takeDigits signed.2 with
  | ([], _) => none
  | (ds, rest) =>
    if decide (1 < ds.length) && ds.headD '0' = '0' then none
    else
      let n : Int := Int.ofNat (natOfDigits ds 0)
      let v : Int := if signed.1 then -n else n
      match rest with
      | c :: _ => if c = '.' || c = 'e' || c = 'E' then none else some (v, rest)
      | [] => some (v, rest)

/-- Hexadecimal digit value. -/
def hexVal (c : Char) : Option Nat :=
  if isDigitCh c then some (c.toNat - 48)
  else if decide (97 ≤ c.toNat) && decide (c.toNat ≤ 102) then some (c.toNat - 87)
  else if decide (65 ≤ c.toNat) && decide (c.toNat ≤ 70) then some (c.toNat - 55)
  else none

/-- JSON string body after the opening quote: content up to the closing
quote plus the remaining input.  Raw control characters are rejected;
escapes are decoded; a `\\u` escape denoting a surrogate half (havable in
JS strings, not in the modelled domain) is a parse failure. -/
def parseStringBody (fuel : Nat) (cs : List Char) : Option (List Char × List Char) :=
  match fuel, cs with
  | 0, _ => none
  | _, [] => none
  | fuel + 1, c :: rest =>
    if c = '"' then some ([], rest)
    else if c = '\\' then
      match rest with
      | [] => none
      | e :: rest2 =>
        if e = 'u' then
          match rest2 with
          | h1 :: h2 :: h3 :: h4 :: rest3 =>
            match hexVal h1, hexVal h2, hexVal h3, hexVal h4 with
            | some a, some b, some c2, some d =>
              let code := a * 4096 + b * 256 + c2 * 16 + d
              if decide (55296 ≤ code) && decide (code ≤ 57343) then none
              else
                (parseStringBody fuel rest3).map (fun p => (Char.ofNat code :: p.1, p.2))
            | _, _, _, _ => none
          | _ => none
        else
          let dec : Option Char :=
            if e = '"' then some '"'
            else if e = '\\' then some '\\'
            else if e = '/' then some '/'
            else if e = 'n' then some '\n'
            else if e = 't' then some '\t'
            else if e = 'r' then some (Char.ofNat 13)
            else if e = 'b' then some (Char.ofNat 8)
            else if e = 'f' then some (Char.ofNat 12)
            else none
          match dec with
          | none => none
          | some d => (parseStringBody fuel rest2).map (fun p => (d :: p.1, p.2))
    else if c.toNat < 32 then none
    else (parseStringBody fuel rest).map (fun p => (c :: p.1, p.2))

mutual

/-- JSON value at the front of the input (fuelled; the fuel is bounded
below by the input length at the top entry, and every recursive call
consumes input, so the fuel never runs out there).  A `'['` (array,
outside the modelled domain) is a parse failure. -/
def parseValue (fuel : Nat) (cs : List Char) : Option (JValue × List Char) :=
  match fuel with
  | 0 => none
  | fuel + 1 =>
    match skipWs cs with
    | [] => none
    | c :: rest =>
      if c = '{' then
        match skipWs rest with
        | '}' :: rest2 => some (.obj .nil, rest2)
        | rest2 => (parseMembers fuel .nil rest2).map (fun p => (JValue.obj p.1, p.2))
      else if c = '"' then
        (parseStringBody fuel rest).map (fun p => (JValue.str (String.mk p.1), p.2))
      else if c = 't' then
        match rest with
        | 'r' :: 'u' :: 'e' :: rest2 => some (.bool true, rest2)
        | _ => none
      else if c = 'f' then
        match rest with
        | 'a' :: 'l' :: 's' :: 'e' :: rest2 => some (.bool false, rest2)
        | _ => none
      else if c = 'n' then
        match rest with
        | 'u' :: 'l' :: 'l' :: rest2 => some (.null, rest2)
        | _ => none
      else if c = '-' || isDigitCh c then
        (parseNumber (c :: rest)).map (fun p => (JValue.num p.1, p.2))
      else none

/-- JSON object members from just after `'{'` (or a separating comma),
accumulated with `setF` so that a duplicate key overwrites in place as
`JSON.parse` does. -/
def parseMembers (fuel : Nat) (acc : JFields) (cs : List Char) : Option (JFields × List Char) :=
  match fuel with
  | 0 => none
  | fuel + 1 =>
    match skipWs cs with
    | '"' :: rest =>
      match parseStringBody fuel rest with
      | none => none
      | some (keyChars, rest2) =>
        match skipWs rest2 with
        | ':' :: rest3 =>
          match parseValue fuel rest3 with
          | none => none
          | some (v, rest4) =>
            let acc2 := setF acc (String.mk keyChars) v
            match skipWs rest4 with
            | ',' :: rest5 => parseMembers fuel acc2 rest5
            | '}' :: rest5 => some (acc2, rest5)
            | _ => none
        | _ => none
    | _ => none

end

/-- `JSON.parse` on the modelled domain: a single value followed only by
whitespace. -/
def jsonParse (s : String) : Option JValue :=
  match parseValue (s.data.length + 2) s.data with
  | none => none
  | some (v, rest) =>
    match skipWs rest with
    | [] => some v
    | _ => none

/-- `decryptObject(encryptedData)`: `JSON.parse(decrypt(...))`, falling
back to `JSON.parse` of the raw input, falling back to `{}`; never
throws. -/
def decryptObject (encryptedData : String) : JValue :=
  match jsonParse (decrypt encryptedData) with
  | some v => v
  | none =>
    match jsonParse encryptedData with
    | some v => v
    | none => .obj .nil

/-- Count of positions where two strings differ (plus the length
difference); `corruptd ≠ original` in exactly one character means this
count is `1`. -/
def diffCount : List Char → List Char → Nat
  | [], b => b.length
  | _ :: ra, [] => 1 + diffCount ra []
  | a :: ra, b :: rb => (if a = b then 0 else 1) + diffCount ra rb

example : encryptObject (.obj (.cons "a" (.num 1) .nil)) = "CB9nGz0FHR1LOlhE" := by decide
example : decryptObject "CB9nGz0FHR1LOlhE" = .obj (.cons "a" (.num 1) .nil) := by decide
example : decryptObject "CB9nGz0FHRxLOlhE" = .obj (.cons "a" (.num 2) .nil) := by decide
example : decryptObject "CB9nGz0FHR*LOlhE" = .obj .nil := by decide

/-! ### Path relations and concrete instances used by the witnesses -/

/-- `a` is an initial run of `b`'s segments (possibly all of them). -/
def segPre (a b : List String) : Prop := b.take a.length = a

instance (a b : List String) : Decidable (segPre a b) :=
  decidable_of_iff (b.take a.length = a) Iff.rfl

/-- Path `a` is a strict ancestor of path `p`: `a`'s dot-segments form a
proper initial run of `p`'s.  The root (empty segment list) never occurs,
since splitting always yields at least one segment. -/
def strictAncestor (a p : String) : Prop :=
  segPre (splitOnDot a) (splitOnDot p) ∧ (splitOnDot a).length < (splitOnDot p).length

instance (a p : String) : Decidable (strictAncestor a p) := by
  unfold strictAncestor
  infer_instance

/-- Default options of a `GlobalStore` instance. -/
def optsDefault : StoreOptions :=
  { enablePersistence := true, enableEncryption := true, storageKey := "mf-shell-store" }

/-- A trivial codec for concrete witnesses. -/
def codec0 : Codec :=
  { encodeTree := fun _ _ => "T", encodeValue := fun _ _ => "V", decodeValue := fun _ _ => none }

/-- A codec whose per-key decode recognizes the raw text `"RAW"`. -/
def codecLoad : Codec :=
  { encodeTree := fun _ _ => "T", encodeValue := fun _ _ => "V",
    decodeValue := fun _ s => if s = "RAW" then some (JValue.num 7) else none }

/-- An initialized store with an empty tree. -/
def stInit : GlobalStoreState :=
  { data := .nil, isInitialized := true, options := optsDefault, strategies := [],
    subscribers := [], localStore := [], sessionStore := [] }

/-- An initialized store with a local-medium strategy for the prefix
`"user"` and a persisted per-key item for `"user"`. -/
def stHydrate : GlobalStoreState :=
  { data := .nil, isInitialized := true, options := optsDefault,
    strategies := [("user", { medium := Medium.local, encrypted := false })],
    subscribers := [], localStore := [("mf-shell-store:user", "RAW")], sessionStore := [] }

/-- An uninitialized store with nonempty tree, subscribers and storage. -/
def stUninit : GlobalStoreState :=
  { data := .cons "x" (.num 1) .nil, isInitialized := false, options := optsDefault,
    strategies := [], subscribers := [("x", [0])],
    localStore := [("k", "v")], sessionStore := [] }

/-- An initialized store under storage key `"app"` with a subscriber and
both app-owned and foreign storage items. -/
def stApp : GlobalStoreState :=
  { data := .cons "x" (.num 1) .nil, isInitialized := true,
    options := { enablePersistence := true, enableEncryption := true, storageKey := "app" },
    strategies := [], subscribers := [("x", [0])],
    localStore := [("app", "AGG"), ("app:x", "PX"), ("other", "O"), ("other:y", "OY")],
    sessionStore := [("app:z", "SZ"), ("other:w", "OW")] }

/-! ## Lemmas -/

/-- Plain structural induction on field lists (the mutual recursor of
`JFields` has two motives, this one-motive version suits `induction`). -/
theorem JFields.inductionOn {motive : JFields → Prop} (nil : motive .nil)
    (cons : ∀ k v r, motive r → motive (.cons k v r)) : ∀ fs, motive fs
  | .nil => nil
  | .cons k v r => cons k v r (JFields.inductionOn nil cons r)

theorem lookupF_setF_self (fs : JFields) (k : String) (v : JValue) :
    lookupF (setF fs k v) k = some v := by
  induction fs using JFields.inductionOn with
  | nil => simp [setF, lookupF]
  | cons k2 w rest ih =>
    by_cases h : k2 = k
    · subst h; simp [setF, lookupF]
    · simp [setF, h, lookupF, ih]

theorem lookupF_setF_ne (fs : JFields) (k k2 : String) (v : JValue) (h : k2 ≠ k) :
    lookupF (setF fs k v) k2 = lookupF fs k2 := by
  induction fs using JFields.inductionOn with
  | nil => simp [setF, lookupF, Ne.symm h]
  | cons k3 w rest ih =>
    by_cases h3 : k3 = k
    · subst h3; simp [setF, lookupF, Ne.symm h]
    · simp [setF, h3, lookupF, ih]

theorem lookupF_deleteF_self (fs : JFields) (k : String) :
    lookupF (deleteF fs k) k = none := by
  induction fs using JFields.inductionOn with
  | nil => simp [deleteF, lookupF]
  | cons k2 w rest ih =>
    by_cases h : k2 = k
    · simp [deleteF, h, ih]
    · simp [deleteF, h, lookupF, ih]

theorem lookupF_deleteF_ne (fs : JFields) (k k2 : String) (h : k2 ≠ k) :
    lookupF (deleteF fs k) k2 = lookupF fs k2 := by
  induction fs using JFields.inductionOn with
  | nil => simp [deleteF]
  | cons k3 w rest ih =>
    by_cases h3 : k3 = k
    · subst h3; simp [deleteF, lookupF, Ne.symm h, ih]
    · simp [deleteF, h3, lookupF, ih]

theorem lookupA_setA_self {β : Type} (l : List (String × β)) (k : String) (v : β) :
    lookupA (setA l k v) k = some v := by
  induction l with
  | nil => simp [setA, lookupA]
  | cons e rest ih =>
    obtain ⟨k2, w⟩ := e
    by_cases h : k2 = k
    · subst h; simp [setA, lookupA]
    · simp [setA, h, lookupA, ih]

theorem lookupA_mem {β : Type} (l : List (String × β)) (k : String) (v : β)
    (h : lookupA l k = some v) : (k, v) ∈ l := by
  induction l with
  | nil => simp [lookupA] at h
  | cons e rest ih =>
    obtain ⟨k2, w⟩ := e
    by_cases h2 : k2 = k
    · subst h2
      simp [lookupA] at h
      simp [h]
    · simp [lookupA, h2] at h
      exact List.mem_cons_of_mem _ (ih h)

theorem lookupA_of_mem_nodup {β : Type} (l : List (String × β)) (k : String) (v : β)
    (hnd : (l.map Prod.fst).Nodup) (hmem : (k, v) ∈ l) : lookupA l k = some v := by
  induction l with
  | nil => simp at hmem
  | cons e rest ih =>
    obtain ⟨k2, w⟩ := e
    simp only [List.map_cons, List.nodup_cons] at hnd
    rcases List.mem_cons.mp hmem with h | h
    · obtain ⟨hk, hv⟩ := Prod.mk.injEq .. ▸ h
      simp [lookupA, hk.symm, hv]
    · have hne : k2 ≠ k := by
        intro hh
        subst hh
        exact hnd.1 (List.mem_map.mpr ⟨(k2, v), h, rfl⟩)
      simp [lookupA, hne, ih hnd.2 h]

theorem mem_deleteA {β : Type} (l : List (String × β)) (k : String) (e : String × β)
    (h : e ∈ deleteA l k) : e ∈ l ∧ e.1 ≠ k := by
  induction l with
  | nil => simp [deleteA] at h
  | cons e2 rest ih =>
    obtain ⟨k2, w⟩ := e2
    by_cases h2 : k2 = k
    · simp only [deleteA, if_pos h2] at h
      exact ⟨List.mem_cons_of_mem _ (ih h).1, (ih h).2⟩
    · simp only [deleteA, if_neg h2] at h
      rcases List.mem_cons.mp h with hh | hh
      · subst hh; exact ⟨List.mem_cons_self .., h2⟩
      · exact ⟨List.mem_cons_of_mem _ (ih hh).1, (ih hh).2⟩

theorem mem_deleteA_of {β : Type} (l : List (String × β)) (k : String) (e : String × β)
    (hmem : e ∈ l) (hne : e.1 ≠ k) : e ∈ deleteA l k := by
  induction l with
  | nil => simp at hmem
  | cons e2 rest ih =>
    obtain ⟨k2, w⟩ := e2
    rcases List.mem_cons.mp hmem with hh | hh
    · subst hh
      simp only [deleteA, if_neg hne]
      exact List.mem_cons_self ..
    · by_cases h2 : k2 = k
      · simp only [deleteA, if_pos h2]
        exact ih hh
      · simp only [deleteA, if_neg h2]
        exact List.mem_cons_of_mem _ (ih hh)

theorem lookupA_eq_none {β : Type} (l : List (String × β)) (k : String)
    (h : ∀ e ∈ l, e.1 ≠ k) : lookupA l k = none := by
  induction l with
  | nil => rfl
  | cons e rest ih =>
    obtain ⟨k2, w⟩ := e
    have hk2 : k2 ≠ k := h (k2, w) (List.mem_cons_self ..)
    simp [lookupA, hk2]
    exact ih (fun e he => h e (List.mem_cons_of_mem _ he))

theorem splitCh_ne_nil (cs : List Char) : splitCh cs ≠ [] := by
  cases cs with
  | nil => simp [splitCh]
  | cons c rest =>
    by_cases h : c = '.'
    · simp [splitCh, h]
    · simp only [splitCh, if_neg h]
      cases splitCh rest <;> simp

theorem joinCh_splitCh (cs : List Char) : joinCh (splitCh cs) = cs := by
  induction cs with
  | nil => rfl
  | cons c rest ih =>
    by_cases h : c = '.'
    · subst h
      simp only [splitCh, if_pos rfl]
      obtain ⟨s, ss, hss⟩ := List.exists_cons_of_ne_nil (splitCh_ne_nil rest)
      rw [hss]
      rw [hss] at ih
      show [] ++ '.' :: joinCh (s :: ss) = '.' :: rest
      simp [ih]
    · simp only [splitCh, if_neg h]
      obtain ⟨s, ss, hss⟩ := List.exists_cons_of_ne_nil (splitCh_ne_nil rest)
      rw [hss]
      rw [hss] at ih
      cases ss with
      | nil =>
        show c :: s = c :: rest
        simpa [joinCh] using ih
      | cons t ts =>
        show (c :: s) ++ '.' :: joinCh (t :: ts) = c :: rest
        rw [← ih]
        rfl

theorem noDot_splitCh (cs : List Char) : ∀ p ∈ splitCh cs, '.' ∉ p := by
  induction cs with
  | nil =>
    intro p hp
    simp [splitCh] at hp
    subst hp
    simp
  | cons c rest ih =>
    intro p hp
    by_cases h : c = '.'
    · subst h
      simp only [splitCh, if_pos rfl] at hp
      rcases List.mem_cons.mp hp with h1 | h1
      · subst h1; simp
      · exact ih p h1
    · simp only [splitCh, if_neg h] at hp
      obtain ⟨s, ss, hss⟩ := List.exists_cons_of_ne_nil (splitCh_ne_nil rest)
      rw [hss] at hp
      rcases List.mem_cons.mp hp with h1 | h1
      · subst h1
        intro hdot
        rcases List.mem_cons.mp hdot with h2 | h2
        · exact h h2.symm
        · exact ih s (by rw [hss]; exact List.mem_cons_self ..) h2
      · exact ih p (by rw [hss]; exact List.mem_cons_of_mem _ h1)

theorem splitCh_single (p : List Char) (h : '.' ∉ p) : splitCh p = [p] := by
  induction p with
  | nil => rfl
  | cons c rest ih =>
    have hc : ¬ c = '.' := by
      intro hh
      subst hh
      exact h (List.mem_cons_self ..)
    have hr : '.' ∉ rest := fun hh => h (List.mem_cons_of_mem _ hh)
    simp only [splitCh, if_neg hc, ih hr]

theorem splitCh_append_dot (p t : List Char) (h : '.' ∉ p) :
    splitCh (p ++ '.' :: t) = p :: splitCh t := by
  induction p with
  | nil => simp [splitCh]
  | cons c rest ih =>
    have hc : ¬ c = '.' := by
      intro hh
      subst hh
      exact h (List.mem_cons_self ..)
    have hrest := ih (fun hh => h (List.mem_cons_of_mem _ hh))
    show splitCh (c :: (rest ++ '.' :: t)) = (c :: rest) :: splitCh t
    simp only [splitCh, if_neg hc, hrest]

theorem splitCh_joinCh (ps : List (List Char)) (h : ps ≠ []) (hd : ∀ p ∈ ps, '.' ∉ p) :
    splitCh (joinCh ps) = ps := by
  induction ps with
  | nil => exact absurd rfl h
  | cons p qs ih =>
    cases qs with
    | nil =>
      show splitCh (joinCh [p]) = [p]
      exact splitCh_single p (hd p (List.mem_cons_self ..))
    | cons q rs =>
      show splitCh (p ++ '.' :: joinCh (q :: rs)) = p :: q :: rs
      rw [splitCh_append_dot p _ (hd p (List.mem_cons_self ..))]
      rw [ih (by simp) (fun x hx => hd x (List.mem_cons_of_mem _ hx))]

theorem joinDots_splitOnDot (s : String) : joinDots (splitOnDot s) = s := by
  unfold joinDots splitOnDot
  rw [List.map_map]
  have hcomp : (String.data ∘ String.mk) = (id : List Char → List Char) :=
    funext (fun l => rfl)
  rw [hcomp, List.map_id, joinCh_splitCh]

theorem splitOnDot_ne_nil (s : String) : splitOnDot s ≠ [] := by
  unfold splitOnDot
  simp [splitCh_ne_nil]

theorem noDot_splitOnDot (s : String) : ∀ x ∈ splitOnDot s, '.' ∉ x.data := by
  intro x hx
  obtain ⟨p, hp, hpx⟩ := List.mem_map.mp hx
  have : x.data = p := by rw [← hpx]
  rw [this]
  exact noDot_splitCh s.data p hp

theorem splitOnDot_joinDots (ps : List String) (h : ps ≠ [])
    (hd : ∀ p ∈ ps, '.' ∉ p.data) : splitOnDot (joinDots ps) = ps := by
  unfold splitOnDot joinDots
  have hmap : (ps.map String.data) ≠ [] := by simpa using h
  have hdm : ∀ p ∈ ps.map String.data, '.' ∉ p := by
    intro p hp
    obtain ⟨x, hx, hxp⟩ := List.mem_map.mp hp
    rw [← hxp]
    exact hd x hx
  rw [show (String.mk (joinCh (ps.map String.data))).data = joinCh (ps.map String.data) from rfl]
  rw [splitCh_joinCh _ hmap hdm, List.map_map]
  have hcomp : (String.mk ∘ String.data) = (id : String → String) :=
    funext (fun x => rfl)
  rw [hcomp, List.map_id]

theorem splitOnDot_injective (a b : String) (h : splitOnDot a = splitOnDot b) : a = b := by
  have := congrArg joinDots h
  rwa [joinDots_splitOnDot, joinDots_splitOnDot] at this

theorem foldl_getStep_none (segs : List String) : segs.foldl getStep none = none := by
  induction segs with
  | nil => rfl
  | cons k rest ih => simpa [getStep] using ih

theorem getSegs_cons (fs : JFields) (k : String) (rest : List String) :
    getSegs fs (k :: rest) = rest.foldl getStep (lookupF fs k) := rfl

theorem getStep_non_obj (v : JValue) (k : String) (h : ∀ gs, v ≠ .obj gs) :
    getStep (some v) k = none := by
  cases v with
  | obj gs => exact absurd rfl (h gs)
  | null => rfl
  | bool b => cases b <;> rfl
  | num n => simp [getStep]
  | str s => simp [getStep]

theorem getSegs_setInObj_self (ks : List String) (fs : JFields) (lk : String) (v : JValue) :
    getSegs (setInObj fs ks lk (some v)) (ks ++ [lk]) = some v := by
  induction ks generalizing fs with
  | nil =>
    show getSegs (setF fs lk v) [lk] = some v
    rw [getSegs_cons, lookupF_setF_self]
    rfl
  | cons k rest ih =>
    show getSegs (setF fs k (.obj (setInObj (childOf fs k) rest lk (some v))))
        (k :: (rest ++ [lk])) = some v
    rw [getSegs_cons, lookupF_setF_self]
    exact ih (childOf fs k)

theorem getSegs_setInObj_del (ks : List String) (fs : JFields) (lk : String) :
    getSegs (setInObj fs ks lk none) (ks ++ [lk]) = none := by
  induction ks generalizing fs with
  | nil =>
    show getSegs (deleteF fs lk) [lk] = none
    rw [getSegs_cons, lookupF_deleteF_self]
    rfl
  | cons k rest ih =>
    show getSegs (setF fs k (.obj (setInObj (childOf fs k) rest lk none)))
        (k :: (rest ++ [lk])) = none
    rw [getSegs_cons, lookupF_setF_self]
    exact ih (childOf fs k)

theorem getSegs_setInObj_parent (ks : List String) (fs : JFields) (lk : String)
    (h : ks ≠ []) :
    ∃ gs, getSegs (setInObj fs ks lk none) ks = some (.obj gs) ∧ lookupF gs lk = none := by
  induction ks generalizing fs with
  | nil => exact absurd rfl h
  | cons k rest ih =>
    cases rest with
    | nil =>
      refine ⟨deleteF (childOf fs k) lk, ?_, lookupF_deleteF_self _ _⟩
      show getSegs (setF fs k (.obj (deleteF (childOf fs k) lk))) [k] = _
      rw [getSegs_cons, lookupF_setF_self]
      rfl
    | cons r rs =>
      obtain ⟨gs, h1, h2⟩ := ih (childOf fs k) (by simp)
      refine ⟨gs, ?_, h2⟩
      show getSegs (setF fs k (.obj (setInObj (childOf fs k) (r :: rs) lk none)))
          (k :: r :: rs) = _
      rw [getSegs_cons, lookupF_setF_self]
      exact h1

theorem segPre_nil (b : List String) : segPre [] b := rfl

theorem segPre_cons_iff (x : String) (a b : List String) :
    segPre (x :: a) (x :: b) ↔ segPre a b := by
  unfold segPre
  simp [List.take_succ_cons]

theorem segPre_single (q : String) (t : List String) : segPre [q] (q :: t) := by
  unfold segPre
  simp

theorem frame_setInObj (ksP : List String) (fs : JFields) (lk : String)
    (value : Option JValue) (ksQ : List String)
    (h1 : ¬ segPre ksQ (ksP ++ [lk])) (h2 : ¬ segPre (ksP ++ [lk]) ksQ) :
    getSegs (setInObj fs ksP lk value) ksQ = getSegs fs ksQ := by
  induction ksP generalizing fs ksQ with
  | nil =>
    cases ksQ with
    | nil => exact absurd (segPre_nil _) h1
    | cons q qrest =>
      by_cases hq : q = lk
      · subst hq
        exact absurd (segPre_single q qrest) h2
      · cases value with
        | none =>
          show getSegs (deleteF fs lk) (q :: qrest) = _
          rw [getSegs_cons, getSegs_cons, lookupF_deleteF_ne fs lk q hq]
        | some v =>
          show getSegs (setF fs lk v) (q :: qrest) = _
          rw [getSegs_cons, getSegs_cons, lookupF_setF_ne fs lk q v hq]
  | cons k rest ih =>
    cases ksQ with
    | nil => exact absurd (segPre_nil _) h1
    | cons q qrest =>
      by_cases hq : q = k
      · subst hq
        have hpq1 : ¬ segPre qrest (rest ++ [lk]) := by
          intro hh
          exact h1 ((segPre_cons_iff q qrest (rest ++ [lk])).mpr hh)
        have hpq2 : ¬ segPre (rest ++ [lk]) qrest := by
          intro hh
          exact h2 ((segPre_cons_iff q (rest ++ [lk]) qrest).mpr hh)
        have hqrest : qrest ≠ [] := by
          intro hh
          subst hh
          exact h1 (segPre_single q (rest ++ [lk]))
        obtain ⟨q2, qr2, hqq⟩ := List.exists_cons_of_ne_nil hqrest
        subst hqq
        show getSegs (setF fs q (.obj (setInObj (childOf fs q) rest lk value)))
            (q :: q2 :: qr2) = _
        rw [getSegs_cons, lookupF_setF_self]
        have hih := ih (childOf fs q) (q2 :: qr2) hpq1 hpq2
        rw [show ((q2 :: qr2).foldl getStep
              (some (.obj (setInObj (childOf fs q) rest lk value))))
            = getSegs (setInObj (childOf fs q) rest lk value) (q2 :: qr2) from rfl]
        rw [hih, getSegs_cons, getSegs_cons]
        cases hcf : lookupF fs q with
        | none =>
          have hchild : childOf fs q = .nil := by
            unfold childOf
            rw [hcf]
          rw [hchild]
          rfl
        | some v =>
          cases v with
          | obj gs =>
            have hchild : childOf fs q = gs := by
              unfold childOf
              rw [hcf]
            rw [hchild]
            rfl
          | null =>
            have hchild : childOf fs q = .nil := by
              unfold childOf
              rw [hcf]
            rw [hchild]
            rfl
          | bool b =>
            have hchild : childOf fs q = .nil := by
              unfold childOf
              rw [hcf]
            rw [hchild,
              show List.foldl getStep (some (JValue.bool b)) (q2 :: qr2)
                = qr2.foldl getStep (getStep (some (JValue.bool b)) q2) from rfl,
              getStep_non_obj _ q2 (fun gs hh => JValue.noConfusion hh)]
            rfl
          | num n =>
            have hchild : childOf fs q = .nil := by
              unfold childOf
              rw [hcf]
            rw [hchild,
              show List.foldl getStep (some (JValue.num n)) (q2 :: qr2)
                = qr2.foldl getStep (getStep (some (JValue.num n)) q2) from rfl,
              getStep_non_obj _ q2 (fun gs hh => JValue.noConfusion hh)]
            rfl
          | str s2 =>
            have hchild : childOf fs q = .nil := by
              unfold childOf
              rw [hcf]
            rw [hchild,
              show List.foldl getStep (some (JValue.str s2)) (q2 :: qr2)
                = qr2.foldl getStep (getStep (some (JValue.str s2)) q2) from rfl,
              getStep_non_obj _ q2 (fun gs hh => JValue.noConfusion hh)]
            rfl
      · cases value with
        | none =>
          show getSegs (setF fs k (.obj (setInObj (childOf fs k) rest lk none)))
              (q :: qrest) = _
          rw [getSegs_cons, getSegs_cons, lookupF_setF_ne _ _ _ _ hq]
        | some v =>
          show getSegs (setF fs k (.obj (setInObj (childOf fs k) rest lk (some v))))
              (q :: qrest) = _
          rw [getSegs_cons, getSegs_cons, lookupF_setF_ne _ _ _ _ hq]

theorem splitOnDot_decomp (p : String) : ∃ ks lk, splitOnDot p = ks ++ [lk] := by
  have h := splitOnDot_ne_nil p
  exact ⟨(splitOnDot p).dropLast, (splitOnDot p).getLast h,
    (List.dropLast_append_getLast h).symm⟩

theorem setNestedValue_eq_of_split (fs : JFields) (p : String) (value : Option JValue)
    (ks : List String) (lk : String) (h : splitOnDot p = ks ++ [lk]) :
    setNestedValue fs p value = if lk = "" then fs else setInObj fs ks lk value := by
  unfold setNestedValue
  simp only [h, List.getLast?_concat, List.dropLast_concat]

theorem filter_ne_none_id (cbs : List Nat) :
    cbs.filter (fun c => !(some c == (none : Option Nat))) = cbs :=
  List.filter_eq_self.mpr (fun a _ => rfl)

theorem notify_none_eq (subs : Subscribers) (key : String) (nv ov : Option JValue)
    (core : JFields) :
    notify subs key nv ov core none =
      (match lookupA subs key with
       | some cbs => cbs.map (fun c => Invoc.mk c key nv ov)
       | none => []) ++ notifyParents subs (splitOnDot key) ov core := by
  unfold notify
  cases lookupA subs key with
  | none => simp
  | some cbs => simp [filter_ne_none_id]

theorem take_splitOnDot_ne_nil (p : String) (i : Nat) (hi1 : 1 ≤ i) :
    (splitOnDot p).take i ≠ [] := by
  intro hh
  rcases List.take_eq_nil_iff.mp hh with h | h
  · omega
  · exact splitOnDot_ne_nil p h

theorem splitOnDot_joinDots_take (p : String) (i : Nat) (hi1 : 1 ≤ i) :
    splitOnDot (joinDots ((splitOnDot p).take i)) = (splitOnDot p).take i :=
  splitOnDot_joinDots _ (take_splitOnDot_ne_nil p i hi1)
    (fun x hx => noDot_splitOnDot p x (List.mem_of_mem_take hx))

theorem strictAncestor_joinDots_take (p : String) (i : Nat) (hi1 : 1 ≤ i)
    (hi2 : i < (splitOnDot p).length) :
    strictAncestor (joinDots ((splitOnDot p).take i)) p := by
  have hsj := splitOnDot_joinDots_take p i hi1
  constructor
  · unfold segPre
    rw [hsj, List.length_take, Nat.min_eq_left (le_of_lt hi2)]
  · rw [hsj, List.length_take, Nat.min_eq_left (le_of_lt hi2)]
    exact hi2

theorem strictAncestor_ne (a p : String) (h : strictAncestor a p) : a ≠ p := by
  intro hh
  subst hh
  exact absurd h.2 (lt_irrefl _)

theorem notifyParents_key_ne (p : String) (i : Nat) (hi1 : 1 ≤ i)
    (hi2 : i < (splitOnDot p).length) :
    joinDots ((splitOnDot p).take i) ≠ p :=
  strictAncestor_ne _ p (strictAncestor_joinDots_take p i hi1 hi2)

theorem mem_notifyParents (subs : Subscribers) (p : String) (ov : Option JValue)
    (core : JFields) (a : String) (cbs : List Nat) (c : Nat)
    (hsub : lookupA subs a = some cbs) (hc : c ∈ cbs)
    (i : Nat) (hi1 : 1 ≤ i) (hi2 : i < (splitOnDot p).length)
    (ha : joinDots ((splitOnDot p).take i) = a) :
    Invoc.mk c a (getNestedValue core a) ov ∈ notifyParents subs (splitOnDot p) ov core := by
  unfold notifyParents
  apply List.mem_flatten.mpr
  refine ⟨_, List.mem_map.mpr ⟨i, ?_, rfl⟩, ?_⟩
  · rw [List.mem_reverse, List.mem_range'_1]
    omega
  · show Invoc.mk c a (getNestedValue core a) ov ∈
      (match lookupA subs (joinDots ((splitOnDot p).take i)) with
       | some cbs2 => cbs2.map (fun c2 => Invoc.mk c2 (joinDots ((splitOnDot p).take i))
           (getNestedValue core (joinDots ((splitOnDot p).take i))) ov)
       | none => [])
    rw [ha, hsub]
    exact List.mem_map.mpr ⟨c, hc, rfl⟩

theorem notifyParents_mem_inv (subs : Subscribers) (p : String) (ov : Option JValue)
    (core : JFields) (e : Invoc)
    (he : e ∈ notifyParents subs (splitOnDot p) ov core) :
    ∃ i, 1 ≤ i ∧ i < (splitOnDot p).length ∧
      e.key = joinDots ((splitOnDot p).take i) ∧
      (∃ cbs, lookupA subs (joinDots ((splitOnDot p).take i)) = some cbs ∧ e.cb ∈ cbs) ∧
      e.newValue = getNestedValue core (joinDots ((splitOnDot p).take i)) ∧
      e.oldValue = ov := by
  unfold notifyParents at he
  obtain ⟨l, hl, hel⟩ := List.mem_flatten.mp he
  obtain ⟨i, hi, hfi⟩ := List.mem_map.mp hl
  rw [List.mem_reverse, List.mem_range'_1] at hi
  have hlen : 1 ≤ (splitOnDot p).length := by
    have := splitOnDot_ne_nil p
    have := List.length_pos.mpr this
    omega
  refine ⟨i, hi.1, by omega, ?_⟩
  subst hfi
  revert hel
  show e ∈ (match lookupA subs (joinDots ((splitOnDot p).take i)) with
       | some cbs2 => cbs2.map (fun c2 => Invoc.mk c2 (joinDots ((splitOnDot p).take i))
           (getNestedValue core (joinDots ((splitOnDot p).take i))) ov)
       | none => []) → _
  cases hla : lookupA subs (joinDots ((splitOnDot p).take i)) with
  | none => intro hel; simp at hel
  | some cbs2 =>
    intro hel
    obtain ⟨c2, hc2, hc2e⟩ := List.mem_map.mp hel
    subst hc2e
    exact ⟨rfl, ⟨cbs2, rfl, hc2⟩, rfl, rfl⟩

theorem persistKey_data (codec : Codec) (st : GlobalStoreState) (key : String)
    (value : Option JValue) : (persistKey codec st key value).data = st.data := by
  unfold persistKey
  repeat' split
  all_goals rfl

theorem persistKey_isInit (codec : Codec) (st : GlobalStoreState) (key : String)
    (value : Option JValue) :
    (persistKey codec st key value).isInitialized = st.isInitialized := by
  unfold persistKey
  repeat' split
  all_goals rfl

theorem saveToStorage_data (codec : Codec) (st : GlobalStoreState) :
    (saveToStorage codec st).data = st.data := by
  unfold saveToStorage
  split
  all_goals rfl

theorem saveToStorage_isInit (codec : Codec) (st : GlobalStoreState) :
    (saveToStorage codec st).isInitialized = st.isInitialized := by
  unfold saveToStorage
  split
  all_goals rfl

theorem saveToStorage_localStore (codec : Codec) (st : GlobalStoreState)
    (hp : st.options.enablePersistence = true) (hk : st.options.storageKey ≠ "") :
    (saveToStorage codec st).localStore =
      setA st.localStore st.options.storageKey
        (codec.encodeTree st.options.enableEncryption st.data) := by
  unfold saveToStorage
  rw [if_neg]
  simp [hp, hk]

theorem GlobalStore.set_eq (codec : Codec) (st : GlobalStoreState) (key : String)
    (value : Option JValue) (cb : Option Nat) (h : st.isInitialized = true) :
    GlobalStore.set codec st key value cb =
      ((if st.options.enablePersistence then
          saveToStorage codec
            (persistKey codec { st with data := setNestedValue st.data key value } key value)
        else persistKey codec { st with data := setNestedValue st.data key value } key value),
       [SyncMsg.set key value],
       notify st.subscribers key value (getNestedValue st.data key)
         (setNestedValue st.data key value) cb) := by
  unfold GlobalStore.set
  rw [h]
  rfl

theorem GlobalStore.set_data (codec : Codec) (st : GlobalStoreState) (key : String)
    (value : Option JValue) (cb : Option Nat) (h : st.isInitialized = true) :
    (GlobalStore.set codec st key value cb).1.data = setNestedValue st.data key value := by
  rw [GlobalStore.set_eq codec st key value cb h]
  by_cases hp : st.options.enablePersistence <;>
    simp [hp, saveToStorage_data, persistKey_data]

theorem GlobalStore.set_isInit (codec : Codec) (st : GlobalStoreState) (key : String)
    (value : Option JValue) (cb : Option Nat) (h : st.isInitialized = true) :
    (GlobalStore.set codec st key value cb).1.isInitialized = true := by
  rw [GlobalStore.set_eq codec st key value cb h]
  by_cases hp : st.options.enablePersistence <;>
    simp [hp, saveToStorage_isInit, persistKey_isInit, h]

theorem GlobalStore.get_hit (codec : Codec) (st : GlobalStoreState) (key : String)
    (v : JValue) (h : st.isInitialized = true)
    (hv : getNestedValue st.data key = some v) :
    GlobalStore.get codec st key = (some v, st) := by
  unfold GlobalStore.get
  rw [h, hv]
  rfl

theorem GlobalStore.get_load (codec : Codec) (st : GlobalStoreState) (key : String)
    (w : JValue) (h : st.isInitialized = true)
    (hmiss : getNestedValue st.data key = none) (hload : loadKey codec st key = some w) :
    GlobalStore.get codec st key =
      (some w,
       if st.options.enablePersistence then
         saveToStorage codec { st with data := setNestedValue st.data key (some w) }
       else { st with data := setNestedValue st.data key (some w) }) := by
  unfold GlobalStore.get
  rw [h, hmiss, hload]
  rfl

theorem GlobalStore.get_miss (codec : Codec) (st : GlobalStoreState) (key : String)
    (h : st.isInitialized = true)
    (hmiss : getNestedValue st.data key = none) (hload : loadKey codec st key = none) :
    GlobalStore.get codec st key = (none, st) := by
  unfold GlobalStore.get
  rw [h, hmiss, hload]
  rfl

theorem append_filter_decomp {α : Type} (P : α → Bool) (A B : List α)
    (hA : ∀ e ∈ A, P e = true) (hB : ∀ e ∈ B, P e = false) :
    A ++ B = (A ++ B).filter P ++ (A ++ B).filter (fun e => !(P e)) := by
  rw [List.filter_append, List.filter_append]
  rw [List.filter_eq_self.mpr hA]
  rw [show List.filter P B = [] from List.filter_eq_nil_iff.mpr
    (fun e he => by simp [hB e he])]
  rw [show List.filter (fun e => !(P e)) A = [] from List.filter_eq_nil_iff.mpr
    (fun e he => by simp [hA e he])]
  rw [List.filter_eq_self.mpr (fun e he => by simp [hB e he])]
  simp

/-! ## Claims -/

/-- C1 (amended): for every path `p` whose final dot-segment is non-empty
and every present value `v`, `write(p, v)` followed by `read(p)` returns
exactly `v`, starting from any prior tree; and at the coordinator level,
after an initialized instance performs `set(p, v)`, `get(p)` immediately
returns `v`.  The amendment excludes paths whose final segment is empty
(such as `""` or `"a."`), on which `setNestedValue` returns without
writing (`if (!lastKey) return`). -/
theorem c1_path_roundtrip (fs : JFields) (p : String) (ks : List String) (lk : String)
    (v : JValue) (codec : Codec) (st : GlobalStoreState)
    (hsplit : splitOnDot p = ks ++ [lk]) (hlk : lk ≠ "")
    (hinit : st.isInitialized = true) :
    getNestedValue (setNestedValue fs p (some v)) p = some v ∧
    (GlobalStore.get codec (GlobalStore.set codec st p (some v) none).1 p).1 = some v := by
  have hcore : ∀ gs : JFields, getNestedValue (setNestedValue gs p (some v)) p = some v := by
    intro gs
    rw [show getNestedValue (setNestedValue gs p (some v)) p
        = getSegs (setNestedValue gs p (some v)) (splitOnDot p) from rfl]
    rw [setNestedValue_eq_of_split gs p (some v) ks lk hsplit, if_neg hlk, hsplit]
    exact getSegs_setInObj_self ks gs lk v
  refine ⟨hcore fs, ?_⟩
  have hd := GlobalStore.set_data codec st p (some v) none hinit
  have hi := GlobalStore.set_isInit codec st p (some v) none hinit
  have hval : getNestedValue (GlobalStore.set codec st p (some v) none).1.data p = some v := by
    rw [hd]
    exact hcore st.data
  rw [GlobalStore.get_hit codec _ p v hi hval]

/-- Witness for C1: `p = "user.name"`, `v = 7`, empty tree, fresh
initialized store. -/
theorem c1_path_roundtrip_witness :
    splitOnDot "user.name" = ["user"] ++ ["name"] ∧ ("name" : String) ≠ "" ∧
    stInit.isInitialized = true ∧
    getNestedValue (setNestedValue .nil "user.name" (some (.num 7))) "user.name"
      = some (.num 7) ∧
    (GlobalStore.get codec0
      (GlobalStore.set codec0 stInit "user.name" (some (.num 7)) none).1 "user.name").1
      = some (.num 7) := by
  refine ⟨by decide, by decide, rfl, ?_, ?_⟩
  · exact (c1_path_roundtrip .nil "user.name" ["user"] "name" (.num 7) codec0 stInit
      (by decide) (by decide) rfl).1
  · exact (c1_path_roundtrip .nil "user.name" ["user"] "name" (.num 7) codec0 stInit
      (by decide) (by decide) rfl).2

/-- Counterexample to C1 as stated: at path `""` (a path in the sense of
the spec, with one empty segment) the write is a no-op, so the read
returns absent rather than the written value, at the store level and at
the coordinator level alike. -/
theorem c1_path_roundtrip_cex :
    setNestedValue .nil "" (some (.num 1)) = .nil ∧
    getNestedValue (setNestedValue .nil "" (some (.num 1))) "" = none ∧
    (GlobalStore.get codec0 (GlobalStore.set codec0 stInit "" (some (.num 1)) none).1 "").1
      = none := by
  exact ⟨by decide, by decide, by decide⟩

/-- C2 (amended): for every path whose final segment `lk` is non-empty,
writing absent at the path deletes the entry rather than storing a
sentinel: the subsequent read returns absent, and the parent container
(the root when the path is a single segment, otherwise the object at the
parent path) no longer has a field `lk`.  The amendment excludes paths
whose final segment is empty, on which the write is a no-op. -/
theorem c2_deletion_via_absent (fs : JFields) (p : String) (ks : List String) (lk : String)
    (hsplit : splitOnDot p = ks ++ [lk]) (hlk : lk ≠ "") :
    getNestedValue (setNestedValue fs p none) p = none ∧
    (ks = [] → lookupF (setNestedValue fs p none) lk = none) ∧
    (ks ≠ [] → ∃ gs,
      getNestedValue (setNestedValue fs p none) (joinDots ks) = some (.obj gs) ∧
      lookupF gs lk = none) := by
  have hset := setNestedValue_eq_of_split fs p none ks lk hsplit
  rw [if_neg hlk] at hset
  refine ⟨?_, ?_, ?_⟩
  · rw [show getNestedValue (setNestedValue fs p none) p
        = getSegs (setNestedValue fs p none) (splitOnDot p) from rfl]
    rw [hset, hsplit]
    exact getSegs_setInObj_del ks fs lk
  · intro hks
    subst hks
    rw [hset]
    exact lookupF_deleteF_self fs lk
  · intro hks
    obtain ⟨gs, h1, h2⟩ := getSegs_setInObj_parent ks fs lk hks
    refine ⟨gs, ?_, h2⟩
    rw [show getNestedValue (setNestedValue fs p none) (joinDots ks)
        = getSegs (setNestedValue fs p none) (splitOnDot (joinDots ks)) from rfl]
    rw [hset, splitOnDot_joinDots ks hks
      (fun x hx => noDot_splitOnDot p x (by rw [hsplit]; exact List.mem_append_left _ hx))]
    exact h1

/-- Witness for C2: deleting `"user.name"` from `{user: {name: "n"}}`. -/
theorem c2_deletion_via_absent_witness :
    splitOnDot "user.name" = ["user"] ++ ["name"] ∧ ("name" : String) ≠ "" ∧
    getNestedValue
      (setNestedValue (.cons "user" (.obj (.cons "name" (.str "n") .nil)) .nil)
        "user.name" none) "user.name" = none ∧
    (∃ gs, getNestedValue
        (setNestedValue (.cons "user" (.obj (.cons "name" (.str "n") .nil)) .nil)
          "user.name" none) (joinDots ["user"]) = some (.obj gs) ∧
      lookupF gs "name" = none) := by
  refine ⟨by decide, by decide, ?_, ?_⟩
  · exact (c2_deletion_via_absent (.cons "user" (.obj (.cons "name" (.str "n") .nil)) .nil)
      "user.name" ["user"] "name" (by decide) (by decide)).1
  · exact (c2_deletion_via_absent (.cons "user" (.obj (.cons "name" (.str "n") .nil)) .nil)
      "user.name" ["user"] "name" (by decide) (by decide)).2.2 (by decide)

/-- Counterexample to C2 as stated: the root entry at the empty segment
`""` (reachable by writing path `".x"`) is not deleted by writing absent
at path `""` — the write is a no-op, the read still returns the value and
the root still enumerates the `""` field. -/
theorem c2_deletion_via_absent_cex :
    getNestedValue (setNestedValue .nil ".x" (some (.num 1))) "" =
      some (.obj (.cons "x" (.num 1) .nil)) ∧
    setNestedValue (setNestedValue .nil ".x" (some (.num 1))) "" none =
      setNestedValue .nil ".x" (some (.num 1)) ∧
    getNestedValue (setNestedValue (setNestedValue .nil ".x" (some (.num 1))) "" none) "" =
      some (.obj (.cons "x" (.num 1) .nil)) ∧
    lookupF (setNestedValue (setNestedValue .nil ".x" (some (.num 1))) "" none) "" ≠ none := by
  exact ⟨by decide, by decide, by decide, by decide⟩

/-- C10: the write frame property: a write at `p` leaves every path `q`
unchanged when `q` is neither `p` itself, nor a strict ancestor of `p`,
nor a descendant of `p` (both relations taken segment-wise). -/
theorem c10_write_frame (fs : JFields) (p : String) (v : JValue) (q : String)
    (hne : q ≠ p) (hanc : ¬ strictAncestor q p) (hdesc : ¬ strictAncestor p q) :
    getNestedValue (setNestedValue fs p (some v)) q = getNestedValue fs q := by
  have hnp1 : ¬ segPre (splitOnDot q) (splitOnDot p) := by
    intro hh
    have hlen : (splitOnDot q).length ≤ (splitOnDot p).length := by
      have hl := congrArg List.length hh
      rw [List.length_take] at hl
      calc (splitOnDot q).length = min (splitOnDot q).length (splitOnDot p).length :=
            hl.symm
        _ ≤ (splitOnDot p).length := Nat.min_le_right _ _
    rcases Nat.lt_or_ge (splitOnDot q).length (splitOnDot p).length with hlt | hge
    · exact hanc ⟨hh, hlt⟩
    · have heq : (splitOnDot q).length = (splitOnDot p).length := Nat.le_antisymm hlen hge
      unfold segPre at hh
      rw [heq, List.take_length] at hh
      exact hne (splitOnDot_injective q p hh.symm)
  have hnp2 : ¬ segPre (splitOnDot p) (splitOnDot q) := by
    intro hh
    have hlen : (splitOnDot p).length ≤ (splitOnDot q).length := by
      have hl := congrArg List.length hh
      rw [List.length_take] at hl
      calc (splitOnDot p).length = min (splitOnDot p).length (splitOnDot q).length :=
            hl.symm
        _ ≤ (splitOnDot q).length := Nat.min_le_right _ _
    rcases Nat.lt_or_ge (splitOnDot p).length (splitOnDot q).length with hlt | hge
    · exact hdesc ⟨hh, hlt⟩
    · have heq : (splitOnDot p).length = (splitOnDot q).length := Nat.le_antisymm hlen hge
      unfold segPre at hh
      rw [heq, List.take_length] at hh
      exact hne (splitOnDot_injective q p hh)
  obtain ⟨ks, lk, hsplit⟩ := splitOnDot_decomp p
  rw [show getNestedValue (setNestedValue fs p (some v)) q
      = getSegs (setNestedValue fs p (some v)) (splitOnDot q) from rfl]
  rw [setNestedValue_eq_of_split fs p (some v) ks lk hsplit]
  by_cases hlk : lk = ""
  · rw [if_pos hlk]
    rfl
  · rw [if_neg hlk]
    exact frame_setInObj ks fs lk (some v) (splitOnDot q)
      (by rw [← hsplit]; exact hnp1) (by rw [← hsplit]; exact hnp2)

/-- Witness for C10: writing `"a.b"` leaves the sibling `"a.c"` intact. -/
theorem c10_write_frame_witness :
    (("a.c" : String) ≠ "a.b") ∧ ¬ strictAncestor "a.c" "a.b" ∧ ¬ strictAncestor "a.b" "a.c" ∧
    getNestedValue
      (setNestedValue (.cons "a" (.obj (.cons "c" (.num 5) .nil)) .nil) "a.b" (some (.num 9)))
      "a.c" =
      getNestedValue (.cons "a" (.obj (.cons "c" (.num 5) .nil)) .nil) "a.c" ∧
    getNestedValue (.cons "a" (.obj (.cons "c" (.num 5) .nil)) .nil) "a.c" = some (.num 5) := by
  refine ⟨by decide, by decide, by decide, ?_, by decide⟩
  exact c10_write_frame (.cons "a" (.obj (.cons "c" (.num 5) .nil)) .nil) "a.b" (.num 9) "a.c"
    (by decide) (by decide) (by decide)

theorem findStrategyFor_foldl_keep (key : String) (l : List (String × StorageStrategy))
    (best : String × Option StorageStrategy)
    (hbest : ∀ e ∈ l, jsStartsWith key e.1 = true → e.1.length ≤ best.1.length) :
    l.foldl
      (fun best entry =>
        if jsStartsWith key entry.1 && decide (best.1.length < entry.1.length) then
          (entry.1, some entry.2)
        else best) best = best := by
  induction l generalizing best with
  | nil => rfl
  | cons e rest ih =>
    rw [List.foldl_cons]
    have hcond : (jsStartsWith key e.1 && decide (best.1.length < e.1.length)) = false := by
      cases hjs : jsStartsWith key e.1 with
      | false => rfl
      | true =>
        have := hbest e (List.mem_cons_self ..) hjs
        simp
        omega
    rw [hcond]
    simp only [Bool.false_eq_true, if_false]
    exact ih best (fun e2 he2 => hbest e2 (List.mem_cons_of_mem _ he2))

theorem findStrategyFor_foldl_found (key : String) (p : String) (s : StorageStrategy) :
    ∀ (l : List (String × StorageStrategy)) (best : String × Option StorageStrategy),
    (p, s) ∈ l → jsStartsWith key p = true → best.1.length < p.length →
    (∀ e ∈ l, jsStartsWith key e.1 = true → e = (p, s) ∨ e.1.length < p.length) →
    l.foldl
      (fun best entry =>
        if jsStartsWith key entry.1 && decide (best.1.length < entry.1.length) then
          (entry.1, some entry.2)
        else best) best = (p, some s) := by
  intro l
  induction l with
  | nil => intro best hmem; simp at hmem
  | cons e rest ih =>
    intro best hmem hjs hlt hmax
    rw [List.foldl_cons]
    by_cases he : e = (p, s)
    · subst he
      rw [show (jsStartsWith key (p, s).1 && decide (best.1.length < (p, s).1.length)) = true
          by simp [hjs, hlt]]
      simp only [if_true]
      apply findStrategyFor_foldl_keep
      intro e2 he2 hjs2
      rcases hmax e2 (List.mem_cons_of_mem _ he2) hjs2 with h | h
      · rw [h]
      · exact le_of_lt h
    · have hmem2 : (p, s) ∈ rest := by
        rcases List.mem_cons.mp hmem with h | h
        · exact absurd h.symm he
        · exact h
      have hmax2 : ∀ e2 ∈ rest, jsStartsWith key e2.1 = true →
          e2 = (p, s) ∨ e2.1.length < p.length :=
        fun e2 he2 => hmax e2 (List.mem_cons_of_mem _ he2)
      by_cases hcond : (jsStartsWith key e.1 && decide (best.1.length < e.1.length)) = true
      · rw [hcond]
        simp only [if_true]
        have hjse : jsStartsWith key e.1 = true := by
          rcases Bool.and_eq_true_iff.mp hcond with ⟨h1, _⟩
          exact h1
        have helt : e.1.length < p.length := by
          rcases hmax e (List.mem_cons_self ..) hjse with h | h
          · exact absurd h he
          · exact h
        exact ih (e.1, some e.2) hmem2 hjs helt hmax2
      · rw [Bool.not_eq_true] at hcond
        rw [hcond]
        simp only [Bool.false_eq_true, if_false]
        exact ih best hmem2 hjs hlt hmax2

/-- C3 (amended): `findStrategyFor` returns the strategy registered at the
prefix that is a string-prefix of the key (by character comparison, not
segment depth) of greatest positive length; the registered entry of the
longest matching prefix is unique since the `Map` holds distinct prefixes
and two equal-length prefixes of one key coincide.  The amendment adds
"positive": a strategy registered at the empty prefix `""` matches every
key but is never returned, because the fold starts with best prefix `""`
and requires a strictly greater length. -/
theorem c3_longest_prefix_resolution (strategies : List (String × StorageStrategy))
    (key p : String) (s : StorageStrategy)
    (hmem : (p, s) ∈ strategies) (hjs : jsStartsWith key p = true) (hpos : 0 < p.length)
    (hmax : ∀ e ∈ strategies, jsStartsWith key e.1 = true →
      e = (p, s) ∨ e.1.length < p.length) :
    findStrategyFor strategies key = some s := by
  unfold findStrategyFor
  rw [findStrategyFor_foldl_found key p s strategies ("", none) hmem hjs
    (by simpa using hpos) hmax]

/-- Witness for C3: with strategies for `"user."` and `"user.secret."`,
the key `"user.secret.token"` resolves to the `"user.secret."` strategy;
a second application shows the prefix `"use"` matching key `"user.name"`
across a segment boundary. -/
theorem c3_longest_prefix_resolution_witness :
    findStrategyFor
      [("user.", { medium := Medium.local, encrypted := false }),
       ("user.secret.", { medium := Medium.session, encrypted := true })]
      "user.secret.token" = some { medium := Medium.session, encrypted := true } ∧
    findStrategyFor [("use", { medium := Medium.local, encrypted := false })] "user.name"
      = some { medium := Medium.local, encrypted := false } := by
  constructor
  · exact c3_longest_prefix_resolution _ "user.secret.token" "user.secret."
      { medium := Medium.session, encrypted := true }
      (by decide) (by decide) (by decide) (by decide)
  · exact c3_longest_prefix_resolution _ "user.name" "use"
      { medium := Medium.local, encrypted := false }
      (by decide) (by decide) (by decide) (by decide)

/-- Counterexample to C3 as stated: the empty prefix `""` is a string
prefix of `"x"` and is the longest (indeed only) registered matching
prefix, yet resolution returns nothing rather than its strategy. -/
theorem c3_longest_prefix_resolution_cex :
    jsStartsWith "x" "" = true ∧
    findStrategyFor [("", { medium := Medium.local, encrypted := false })] "x" = none := by
  exact ⟨by decide, by decide⟩

/-- C4: notification fan-out of `SubscriptionManager.notify` for a change
at path `p` with old value `ov` (no immediate callback): (1) every
subscriber registered at exactly `p` is invoked with `(p, newValue, ov)`;
(2) every subscriber registered at a strict ancestor `a` of `p` is
invoked with `(a, current value of a read from the storage core, ov)` —
the old value it receives is the leaf's, not the ancestor's; (3) no
subscriber registered at a path that is neither `p` nor a strict ancestor
of `p` is invoked; (4) all exact-path invocations precede all ancestor
invocations. -/
theorem c4_notification_fanout (subs : Subscribers) (p : String) (nv ov : Option JValue)
    (core : JFields) (hnd : (subs.map Prod.fst).Nodup) :
    (∀ cbs, lookupA subs p = some cbs → ∀ c ∈ cbs,
      Invoc.mk c p nv ov ∈ notify subs p nv ov core none) ∧
    (∀ a cbs, (a, cbs) ∈ subs → strictAncestor a p → ∀ c ∈ cbs,
      Invoc.mk c a (getNestedValue core a) ov ∈ notify subs p nv ov core none) ∧
    (∀ e ∈ notify subs p nv ov core none, e.key = p ∨ strictAncestor e.key p) ∧
    notify subs p nv ov core none =
      (notify subs p nv ov core none).filter (fun e => e.key == p) ++
        (notify subs p nv ov core none).filter (fun e => !(e.key == p)) := by
  have hdecomp := notify_none_eq subs p nv ov core
  refine ⟨?_, ?_, ?_, ?_⟩
  · intro cbs hcbs c hc
    rw [hdecomp, hcbs]
    exact List.mem_append_left _ (List.mem_map.mpr ⟨c, hc, rfl⟩)
  · intro a cbs hmem hanc c hc
    rw [hdecomp]
    apply List.mem_append_right
    have htake : (splitOnDot p).take (splitOnDot a).length = splitOnDot a := hanc.1
    have hi1 : 1 ≤ (splitOnDot a).length := by
      have := List.length_pos.mpr (splitOnDot_ne_nil a)
      omega
    have hjoin : joinDots ((splitOnDot p).take (splitOnDot a).length) = a := by
      rw [htake, joinDots_splitOnDot]
    exact mem_notifyParents subs p ov core a cbs c
      (lookupA_of_mem_nodup subs a cbs hnd hmem) hc
      (splitOnDot a).length hi1 hanc.2 hjoin
  · intro e he
    rw [hdecomp] at he
    rcases List.mem_append.mp he with he1 | he1
    · left
      revert he1
      cases lookupA subs p with
      | none => intro he1; simp at he1
      | some cbs =>
        intro he1
        obtain ⟨c, hc, hce⟩ := List.mem_map.mp he1
        rw [← hce]
    · right
      obtain ⟨i, hi1, hi2, hkey, _, _, _⟩ := notifyParents_mem_inv subs p ov core e he1
      rw [hkey]
      exact strictAncestor_joinDots_take p i hi1 hi2
  · conv_lhs => rw [hdecomp]
    rw [hdecomp]
    apply append_filter_decomp
    · intro e he
      revert he
      cases lookupA subs p with
      | none => intro he; simp at he
      | some cbs =>
        intro he
        obtain ⟨c, hc, hce⟩ := List.mem_map.mp he
        rw [← hce]
        simp
    · intro e he
      obtain ⟨i, hi1, hi2, hkey, _, _, _⟩ := notifyParents_mem_inv subs p ov core e he
      have : e.key ≠ p := by
        rw [hkey]
        exact notifyParents_key_ne p i hi1 hi2
      simp [this]

/-- Witness for C4: subscribers at `"a"` (handle 10), `"a.b"` (handle 20)
and unrelated `"z"` (handle 30); a change at `"a.b.c"` reaches 20 with the
current value of `"a.b"` and 10 with the current value of `"a"`, and no
invocation addresses `"z"`. -/
theorem c4_notification_fanout_witness :
    (([("a", [10]), ("a.b", [20]), ("z", [30])].map
      (Prod.fst (α := String) (β := List Nat))).Nodup) ∧
    Invoc.mk 20 "a.b"
      (getNestedValue (.cons "a" (.obj (.cons "b" (.obj (.cons "c" (.num 1) .nil)) .nil)) .nil)
        "a.b") none ∈
      notify [("a", [10]), ("a.b", [20]), ("z", [30])] "a.b.c" (some (.num 1)) none
        (.cons "a" (.obj (.cons "b" (.obj (.cons "c" (.num 1) .nil)) .nil)) .nil) none ∧
    Invoc.mk 10 "a"
      (getNestedValue (.cons "a" (.obj (.cons "b" (.obj (.cons "c" (.num 1) .nil)) .nil)) .nil)
        "a") none ∈
      notify [("a", [10]), ("a.b", [20]), ("z", [30])] "a.b.c" (some (.num 1)) none
        (.cons "a" (.obj (.cons "b" (.obj (.cons "c" (.num 1) .nil)) .nil)) .nil) none ∧
    (∀ e ∈ notify [("a", [10]), ("a.b", [20]), ("z", [30])] "a.b.c" (some (.num 1)) none
        (.cons "a" (.obj (.cons "b" (.obj (.cons "c" (.num 1) .nil)) .nil)) .nil) none,
      e.key ≠ "z") := by
  refine ⟨by decide, ?_, ?_, ?_⟩
  · exact (c4_notification_fanout [("a", [10]), ("a.b", [20]), ("z", [30])] "a.b.c"
      (some (.num 1)) none
      (.cons "a" (.obj (.cons "b" (.obj (.cons "c" (.num 1) .nil)) .nil)) .nil)
      (by decide)).2.1 "a.b" [20] (by decide) (by decide) 20 (by decide)
  · exact (c4_notification_fanout [("a", [10]), ("a.b", [20]), ("z", [30])] "a.b.c"
      (some (.num 1)) none
      (.cons "a" (.obj (.cons "b" (.obj (.cons "c" (.num 1) .nil)) .nil)) .nil)
      (by decide)).2.1 "a" [10] (by decide) (by decide) 10 (by decide)
  · intro e he
    rcases (c4_notification_fanout [("a", [10]), ("a.b", [20]), ("z", [30])] "a.b.c"
        (some (.num 1)) none
        (.cons "a" (.obj (.cons "b" (.obj (.cons "c" (.num 1) .nil)) .nil)) .nil)
        (by decide)).2.2.1 e he with h | h
    · rw [h]
      decide
    · intro hz
      rw [hz] at h
      exact absurd h (by decide)

/-- C5: immediate-callback dedup: when the callback passed to `set` is
reference-equal to a callback subscribed at exactly the written key (and
at no other key), one `notify` invokes it exactly once, as the very first
invocation, with the leaf arguments. -/
theorem c5_immediate_callback_dedup (subs : Subscribers) (p : String)
    (nv ov : Option JValue) (core : JFields) (cb : Nat) (cbs : List Nat)
    (hsub : lookupA subs p = some cbs) (hmem : cb ∈ cbs)
    (honly : ∀ e ∈ subs, cb ∈ e.2 → e.1 = p) :
    (notify subs p nv ov core (some cb)).countP (fun e => e.cb == cb) = 1 ∧
    (notify subs p nv ov core (some cb)).head? = some (Invoc.mk cb p nv ov) := by
  have heq : notify subs p nv ov core (some cb)
      = Invoc.mk cb p nv ov ::
        ((cbs.filter (fun c => !(some c == some cb))).map (fun c => Invoc.mk c p nv ov) ++
          notifyParents subs (splitOnDot p) ov core) := by
    unfold notify
    rw [hsub]
    rfl
  refine ⟨?_, by rw [heq]; rfl⟩
  rw [heq, List.countP_cons, List.countP_append]
  have hex : ((cbs.filter (fun c => !(some c == some cb))).map
      (fun c => Invoc.mk c p nv ov)).countP (fun e => e.cb == cb) = 0 := by
    apply List.countP_eq_zero.mpr
    intro e he
    obtain ⟨c, hc, hce⟩ := List.mem_map.mp he
    have hcne : c ≠ cb := by
      have := (List.mem_filter.mp hc).2
      simp at this
      exact this
    rw [← hce]
    simp [hcne]
  have hpar : (notifyParents subs (splitOnDot p) ov core).countP (fun e => e.cb == cb) = 0 := by
    apply List.countP_eq_zero.mpr
    intro e he
    obtain ⟨i, hi1, hi2, hkey, ⟨cbs2, hla, hcb2⟩, _, _⟩ :=
      notifyParents_mem_inv subs p ov core e he
    have hentry := lookupA_mem subs _ cbs2 hla
    intro hcb
    simp at hcb
    rw [hcb] at hcb2
    have := honly _ hentry hcb2
    exact notifyParents_key_ne p i hi1 hi2 this
  rw [hex, hpar]
  simp

/-- Witness for C5: callback 7 both subscribed at `"k"` and passed as the
immediate callback of a `set` at `"k"`. -/
theorem c5_immediate_callback_dedup_witness :
    lookupA [("k", [7, 8])] "k" = some [7, 8] ∧
    (notify [("k", [7, 8])] "k" (some (.num 1)) none .nil (some 7)).countP
      (fun e => e.cb == 7) = 1 ∧
    (notify [("k", [7, 8])] "k" (some (.num 1)) none .nil (some 7)).head?
      = some (Invoc.mk 7 "k" (some (.num 1)) none) := by
  refine ⟨by decide, ?_, ?_⟩
  · exact (c5_immediate_callback_dedup [("k", [7, 8])] "k" (some (.num 1)) none .nil 7 [7, 8]
      (by decide) (by decide) (by decide)).1
  · exact (c5_immediate_callback_dedup [("k", [7, 8])] "k" (some (.num 1)) none .nil 7 [7, 8]
      (by decide) (by decide) (by decide)).2

/-- C6: lazy hydration on `get` for an initialized instance: a present
in-memory value is returned with the state untouched; on a miss, a
successful per-key load is written back into the tree and, when
persistence is enabled (with a truthy storage key), the aggregate item is
rewritten with the hydrated tree — a `get` causing a storage write — and
the loaded value is returned; when both miss, `get` returns absent with
the state untouched. -/
theorem c6_lazy_hydration (codec : Codec) (st : GlobalStoreState) (key : String)
    (hinit : st.isInitialized = true) :
    (∀ v, getNestedValue st.data key = some v →
      GlobalStore.get codec st key = (some v, st)) ∧
    (∀ w, getNestedValue st.data key = none → loadKey codec st key = some w →
      (GlobalStore.get codec st key).1 = some w ∧
      (GlobalStore.get codec st key).2.data = setNestedValue st.data key (some w) ∧
      (st.options.enablePersistence = true → st.options.storageKey ≠ "" →
        lookupA (GlobalStore.get codec st key).2.localStore st.options.storageKey =
          some (codec.encodeTree st.options.enableEncryption
            (setNestedValue st.data key (some w))))) ∧
    (getNestedValue st.data key = none → loadKey codec st key = none →
      GlobalStore.get codec st key = (none, st)) := by
  refine ⟨?_, ?_, ?_⟩
  · intro v hv
    exact GlobalStore.get_hit codec st key v hinit hv
  · intro w hmiss hload
    rw [GlobalStore.get_load codec st key w hinit hmiss hload]
    refine ⟨rfl, ?_, ?_⟩
    · by_cases hp : st.options.enablePersistence <;> simp [hp, saveToStorage_data]
    · intro hpers hkey
      simp only [hpers, if_true]
      rw [saveToStorage_localStore codec { st with data := setNestedValue st.data key (some w) }
        hpers hkey]
      exact lookupA_setA_self _ _ _
  · intro hmiss hload
    exact GlobalStore.get_miss codec st key hinit hmiss hload

/-- Witness for C6: a store with a per-key strategy for `"user"`, a
persisted raw item and an empty tree: `get` hydrates the loaded value
into the tree, rewrites the aggregate item and returns the value. -/
theorem c6_lazy_hydration_witness :
    stHydrate.isInitialized = true ∧
    getNestedValue stHydrate.data "user" = none ∧
    loadKey codecLoad stHydrate "user" = some (.num 7) ∧
    (GlobalStore.get codecLoad stHydrate "user").1 = some (.num 7) ∧
    (GlobalStore.get codecLoad stHydrate "user").2.data
      = setNestedValue stHydrate.data "user" (some (.num 7)) ∧
    lookupA (GlobalStore.get codecLoad stHydrate "user").2.localStore "mf-shell-store"
      = some "T" := by
  have h := (c6_lazy_hydration codecLoad stHydrate "user" rfl).2.1 (.num 7)
    (by decide) (by decide)
  refine ⟨rfl, by decide, by decide, h.1, h.2.1, ?_⟩
  have h3 := h.2.2 rfl (by decide)
  exact h3.trans rfl

/-- C7 (amended): `clearAppData` delivers no subscriber notification;
when the argument equals the instance's own storage key, it clears the
in-memory tree (otherwise the tree is untouched); regardless of the
match, it removes the aggregate localStorage item and every item of
either medium whose key carries the `appKey:` prefix, preserves all other
items, and broadcasts the clear.  The amendment removes the claimed
notification of every subscribed path, which the current implementation
does not perform. -/
theorem c7_clearAppData_scope (st : GlobalStoreState) (appKey : String) :
    (GlobalStore.clearAppData st appKey).2.2 = [] ∧
    (appKey = st.options.storageKey → (GlobalStore.clearAppData st appKey).1.data = .nil) ∧
    (appKey ≠ st.options.storageKey → (GlobalStore.clearAppData st appKey).1.data = st.data) ∧
    (GlobalStore.clearAppData st appKey).2.1 = [SyncMsg.clearAppData appKey] ∧
    lookupA (GlobalStore.clearAppData st appKey).1.localStore appKey = none ∧
    (∀ e ∈ (GlobalStore.clearAppData st appKey).1.localStore,
      jsStartsWith e.1 (appKey ++ ":") = false) ∧
    (∀ e ∈ (GlobalStore.clearAppData st appKey).1.sessionStore,
      jsStartsWith e.1 (appKey ++ ":") = false) ∧
    (∀ e ∈ st.localStore, e.1 ≠ appKey → jsStartsWith e.1 (appKey ++ ":") = false →
      e ∈ (GlobalStore.clearAppData st appKey).1.localStore) ∧
    (∀ e ∈ st.sessionStore, jsStartsWith e.1 (appKey ++ ":") = false →
      e ∈ (GlobalStore.clearAppData st appKey).1.sessionStore) := by
  have hls : (GlobalStore.clearAppData st appKey).1.localStore
      = (deleteA st.localStore appKey).filter
          (fun e => !(jsStartsWith e.1 (appKey ++ ":"))) := by
    unfold GlobalStore.clearAppData clearStorages
    split <;> rfl
  have hss : (GlobalStore.clearAppData st appKey).1.sessionStore
      = st.sessionStore.filter (fun e => !(jsStartsWith e.1 (appKey ++ ":"))) := by
    unfold GlobalStore.clearAppData clearStorages
    split <;> rfl
  refine ⟨?_, ?_, ?_, ?_, ?_, ?_, ?_, ?_, ?_⟩
  · unfold GlobalStore.clearAppData clearStorages
    split <;> rfl
  · intro h
    unfold GlobalStore.clearAppData clearStorages
    rw [if_pos h]
  · intro h
    unfold GlobalStore.clearAppData clearStorages
    rw [if_neg h]
  · unfold GlobalStore.clearAppData clearStorages
    split <;> rfl
  · rw [hls]
    apply lookupA_eq_none
    intro e he
    exact (mem_deleteA st.localStore appKey e (List.mem_filter.mp he).1).2
  · intro e he
    rw [hls] at he
    have := (List.mem_filter.mp he).2
    simpa using this
  · intro e he
    rw [hss] at he
    have := (List.mem_filter.mp he).2
    simpa using this
  · intro e he hne hpre
    rw [hls]
    exact List.mem_filter.mpr ⟨mem_deleteA_of st.localStore appKey e he hne, by simp [hpre]⟩
  · intro e he hpre
    rw [hss]
    exact List.mem_filter.mpr ⟨he, by simp [hpre]⟩

/-- Witness for C7 on a concrete store under key `"app"`: the tree is
cleared, nothing is notified, the clear is broadcast, the aggregate item
and the prefixed items disappear while foreign items survive in both
media. -/
theorem c7_clearAppData_scope_witness :
    (GlobalStore.clearAppData stApp "app").1.data = .nil ∧
    (GlobalStore.clearAppData stApp "app").2.2 = [] ∧
    (GlobalStore.clearAppData stApp "app").2.1 = [SyncMsg.clearAppData "app"] ∧
    lookupA (GlobalStore.clearAppData stApp "app").1.localStore "app" = none ∧
    ("other", "O") ∈ (GlobalStore.clearAppData stApp "app").1.localStore ∧
    ("other:w", "OW") ∈ (GlobalStore.clearAppData stApp "app").1.sessionStore := by
  obtain ⟨h1, h2, _, h4, h5, _, _, h8, h9⟩ := c7_clearAppData_scope stApp "app"
  exact ⟨h2 rfl, h1, h4, h5, h8 ("other", "O") (by decide) (by decide) (by decide),
    h9 ("other:w", "OW") (by decide) (by decide)⟩

/-- Counterexample to C7 as stated: a store with a subscriber at `"x"`
and storage key `"app"`; `clearAppData("app")` clears the tree but
invokes no subscriber at all, while the claim requires a notification
`("x", undefined, undefined)`. -/
theorem c7_clearAppData_scope_cex :
    lookupA stApp.subscribers "x" = some [0] ∧
    stApp.options.storageKey = "app" ∧
    (GlobalStore.clearAppData stApp "app").2.2 = [] := by
  exact ⟨by decide, rfl, by decide⟩

/-- C8: before `init`, `get` returns absent and `set` performs nothing:
the state (tree, strategies, subscribers, both storage media) is
returned unchanged, nothing is broadcast and no subscriber is invoked;
both calls are total (a warning is logged in the source instead of
throwing). -/
theorem c8_preinit_noop (codec : Codec) (st : GlobalStoreState) (k : String)
    (v : Option JValue) (cb : Option Nat) (h : st.isInitialized = false) :
    GlobalStore.get codec st k = (none, st) ∧
    GlobalStore.set codec st k v cb = (st, [], []) := by
  constructor
  · unfold GlobalStore.get
    rw [h]
    rfl
  · unfold GlobalStore.set
    rw [h]
    rfl

/-- Witness for C8 on a concrete uninitialized store. -/
theorem c8_preinit_noop_witness :
    stUninit.isInitialized = false ∧
    GlobalStore.get codec0 stUninit "x" = (none, stUninit) ∧
    GlobalStore.set codec0 stUninit "x" (some (.num 2)) (some 0) = (stUninit, [], []) := by
  refine ⟨rfl, ?_, ?_⟩
  · exact (c8_preinit_noop codec0 stUninit "x" (some (.num 2)) (some 0) rfl).1
  · exact (c8_preinit_noop codec0 stUninit "x" (some (.num 2)) (some 0) rfl).2

/-- C9 (amended): `decryptObject` is total — every host throw inside
`decrypt` or `JSON.parse` is modelled as an explicit `none` and caught —
and it returns the empty object whenever neither the decrypted text nor
the raw input parses as JSON.  A one-character corruption of an encoded
object usually lands in this case, but not always: the corrupted string
can decrypt to different valid JSON, which is then returned (see the
counterexample). -/
theorem c9_decode_fallback (s : String)
    (h1 : jsonParse (decrypt s) = none) (h2 : jsonParse s = none) :
    decryptObject s = .obj .nil := by
  unfold decryptObject
  rw [h1, h2]

/-- Witness for C9: corrupting one character of the encoding of
`{"a":1}` to a non-base64 character makes decryption fall back to the
raw input, which does not parse, so decoding yields the empty object. -/
theorem c9_decode_fallback_witness :
    diffCount (encryptObject (.obj (.cons "a" (.num 1) .nil))).data
      ("CB9nGz0FHR*LOlhE" : String).data = 1 ∧
    jsonParse (decrypt "CB9nGz0FHR*LOlhE") = none ∧
    jsonParse "CB9nGz0FHR*LOlhE" = none ∧
    decryptObject "CB9nGz0FHR*LOlhE" = .obj .nil := by
  refine ⟨by decide, by decide, by decide, ?_⟩
  exact c9_decode_fallback "CB9nGz0FHR*LOlhE" (by decide) (by decide)

/-- Counterexample to C9 as stated: `encryptObject {"a":1}` is
`"CB9nGz0FHR1LOlhE"`; corrupting exactly one character of it (position
10, `'1'` to `'x'`) yields a string that decodes to the object `{"a":2}`,
not to an empty object. -/
theorem c9_decode_fallback_cex :
    (encryptObject (.obj (.cons "a" (.num 1) .nil))).length
      = ("CB9nGz0FHRxLOlhE" : String).length ∧
    diffCount (encryptObject (.obj (.cons "a" (.num 1) .nil))).data
      ("CB9nGz0FHRxLOlhE" : String).data = 1 ∧
    decryptObject "CB9nGz0FHRxLOlhE" = .obj (.cons "a" (.num 2) .nil) ∧
    decryptObject "CB9nGz0FHRxLOlhE" ≠ .obj .nil := by
  exact ⟨by decide, by decide, by decide, by decide⟩
